import Mathlib

/-!
Verification of the justifying text wrapper (`jtextwrap.py`).

Strings are modelled as `List Char`; Python integers as `Int` with floor
division (`Int.fdiv`) and floor modulo (`Int.fmod`), matching Python's
`//` and `%`.  Fallible code paths (KeyError from the last-line dictionary
dispatch, ZeroDivisionError in `_distribute`, IndexError from `pop(0)` on
an empty list) are modelled with `Option`, `none` marking a raised
exception.  `random.shuffle` is modelled by an explicit `shuffle`
parameter, constrained in theorems to be a permutation.
-/

/-- Configuration attributes of `TextWrapper` (both those added by the
subclass in `jtextwrap.py` and the inherited ones the justify pass reads). -/
structure Config where
  width : Int
  initial_indent : List Char
  subsequent_indent : List Char
  justify : Bool
  random_spacing : Bool
  justify_last : String
  justify_indent : Bool
  max_lines : Option Nat
  placeholder : List Char
deriving Repr, DecidableEq

/-- Classification of a chunk by its first character: `true` for a
whitespace run, `false` for a word run (or the empty chunk). -/
def chunkWs (c : List Char) : Bool :=
  match c with
  | [] => false
  | a :: _ => a.isWhitespace

/-- Model of `TextWrapper._split` (the stdlib chunker used at line 61 of
`jtextwrap.py`): split a string into maximal runs of whitespace and
non-whitespace characters.  The stdlib regex additionally splits word runs
at hyphens, but the justify pass only inspects chunks equal to a single
space and concatenates everything back, so that refinement is
observationally irrelevant to it. -/
def splitChunks : List Char → List (List Char)
  | [] => []
  | c :: rest =>
    match splitChunks rest with
    | (d :: ds) :: chs =>
      if c.isWhitespace = d.isWhitespace then (c :: d :: ds) :: chs
      else [c] :: (d :: ds) :: chs
    | chs => [c] :: chs

/-- `TextWrapper._distribute(num, len)` from `jtextwrap.py` lines 38-47.
Returns `none` exactly when Python would raise `ZeroDivisionError`
(`num % 0`).  For negative `len`, both Python `range` loops are empty and
the result is the empty list. -/
def pyDistribute (num len : Int) : Option (List Int) :=
  if len = 0 then none
  else
    let d := List.replicate len.toNat (num.fdiv len)
    let k := (num.fmod len).toNat
    some ((d.take k).map (fun a => a + 1) ++ d.drop k)

/-- The widening loop of `_wrap_chunks` (lines 85-90): every chunk equal to
a single space pops the next count from the queue and is replaced by
`count + 1` spaces (`' ' * factor`, empty for factors below one); other
chunks pass through.  `none` models the IndexError of `pop(0)` on an
exhausted queue. -/
def widen : List (List Char) → List Int → Option (List (List Char))
  | [], _ => some []
  | ch :: rest, q =>
    if ch = [' '] then
      match q with
      | [] => none
      | a :: q2 => (widen rest q2).map (fun r => List.replicate (a + 1).toNat ' ' :: r)
    else
      (widen rest q).map (fun r => ch :: r)

/-- The indent-exclusion condition of lines 65-66 and 81-82: Python's
`not self.justify_indent` and truthiness of
`self.initial_indent or self.subsequent_indent`. -/
def indentActive (cfg : Config) : Bool :=
  !cfg.justify_indent && (!cfg.initial_indent.isEmpty || !cfg.subsequent_indent.isEmpty)

/-- The participating gap count of a line: `nspaces` after lines 62-67,
as a Python integer (it can become `-1`). -/
def gapCount (cfg : Config) (line : List Char) : Int :=
  (List.count [' '] (splitChunks line) : Int) - (if indentActive cfg then 1 else 0)

/-- One iteration of the justification loop of `_wrap_chunks`
(lines 60-92) applied to a single line. -/
def justifyLine (cfg : Config) (shuffle : List Int → List Int) (line : List Char) :
    Option (List Char) :=
  let chunks := splitChunks line
  let nspaces := gapCount cfg line
  if nspaces = 0 then some line
  else
    let jlen : Int := cfg.width - (line.length : Int)
    match pyDistribute jlen nspaces with
    | none => none
    | some d =>
      let add1 := if cfg.random_spacing then shuffle d else d
      let add2 := if indentActive cfg then 0 :: add1 else add1
      match widen chunks add2 with
      | none => none
      | some r => some r.flatten

/-- Python `str.rjust(w)` with space fill. -/
def rjust (w : Int) (s : List Char) : List Char :=
  List.replicate (w - (s.length : Int)).toNat ' ' ++ s

/-- Python `str.center(w)` with space fill, following CPython:
`marg = w - len`, `left = marg // 2 + (marg & w & 1)`. -/
def pyCenter (w : Int) (s : List Char) : List Char :=
  if w ≤ (s.length : Int) then s
  else
    let marg := (w - (s.length : Int)).toNat
    let left := marg / 2 + (marg &&& w.toNat &&& 1)
    List.replicate left ' ' ++ s ++ List.replicate (marg - left) ' '

/-- Python `str.rstrip()`. -/
def rstrip (s : List Char) : List Char :=
  (s.reverse.dropWhile Char.isWhitespace).reverse

/-- The last-line dictionary dispatch of lines 94-101; `none` models the
KeyError raised when `justify_last` is not one of the four keys. -/
def lastLine (cfg : Config) (orig just : List Char) : Option (List Char) :=
  if cfg.justify_last = "left" then some orig
  else if cfg.justify_last = "right" then some (rjust cfg.width orig)
  else if cfg.justify_last = "center" then some (rstrip (pyCenter cfg.width orig))
  else if cfg.justify_last = "full" then some just
  else none

/-- Traverse a list with a fallible function, failing if any element
fails (the justification loop stops at the first raised exception). -/
def optionMap (f : α → Option β) : List α → Option (List β)
  | [] => some []
  | a :: l =>
    match f a, optionMap f l with
    | some b, some r => some (b :: r)
    | _, _ => none

/-- The whole justification pass of `_wrap_chunks` (lines 53-103), applied
to the lines returned by the parent greedy wrapper. -/
def justifyLines (cfg : Config) (shuffle : List Int → List Int)
    (lines : List (List Char)) : Option (List (List Char)) :=
  if !cfg.justify then some lines
  else
    match lines with
    | [] => some []
    | _ :: _ =>
      (optionMap (justifyLine cfg shuffle) lines).bind fun jl =>
        (lastLine cfg (lines.getLastD []) (jl.getLastD [])).map fun jlast =>
          jl.dropLast ++ [jlast]

/-- Python `str.strip()`. -/
def pyStrip (s : List Char) : List Char :=
  ((s.dropWhile Char.isWhitespace).reverse.dropWhile Char.isWhitespace).reverse

/-- `re.sub(' +', ' ', text)` from `wrap`/`fill` (lines 107 and 112):
collapse each maximal run of spaces to a single space. -/
def collapseSpaces : List Char → List Char
  | [] => []
  | [c] => [c]
  | c :: d :: rest =>
    if c = ' ' ∧ d = ' ' then collapseSpaces (d :: rest)
    else c :: collapseSpaces (d :: rest)

/-- A shuffle function that is a permutation on every input, the contract
of `random.shuffle` (line 78). -/
def IsShuffle (f : List Int → List Int) : Prop :=
  ∀ l : List Int, List.Perm (f l) l

/-- Modelled from the spec: the greedy line packer of the parent
`textwrap.TextWrapper` class, which is not part of this repository's
sources.  Spec section 4.1: chunks are accumulated onto the current line
while the running width does not exceed the target; when the next chunk
would exceed it the line is closed (trailing whitespace dropped) and a new
line starts with the subsequent indent; a whitespace chunk at the start of
a fresh line is dropped; a chunk too long even for a fresh line is broken
so that lines stay no wider than the target. -/
def greedyPack (width : Int) (subs cur : List Char) (fresh : Bool)
    (chunks : List (List Char)) : List (List Char) :=
  match chunks with
  | [] => if fresh then [] else [rstrip cur]
  | ch :: rest =>
    if fresh then
      if chunkWs ch then greedyPack width subs cur fresh rest
      else if (cur.length : Int) + (ch.length : Int) ≤ width then
        greedyPack width subs (cur ++ ch) false rest
      else if width - (cur.length : Int) ≤ 0 then
        greedyPack width subs (cur ++ ch) false rest
      else
        greedyPack width subs (cur ++ ch.take (width - (cur.length : Int)).toNat) false
          (ch.drop (width - (cur.length : Int)).toNat :: rest)
    else if (cur.length : Int) + (ch.length : Int) ≤ width then
      greedyPack width subs (cur ++ ch) false rest
    else
      rstrip cur ::
        (if chunkWs ch then greedyPack width subs subs true rest
         else if (subs.length : Int) + (ch.length : Int) ≤ width then
           greedyPack width subs (subs ++ ch) false rest
         else if width - (subs.length : Int) ≤ 0 then
           greedyPack width subs (subs ++ ch) false rest
         else
           greedyPack width subs (subs ++ ch.take (width - (subs.length : Int)).toNat) false
             (ch.drop (width - (subs.length : Int)).toNat :: rest))
termination_by (chunks.map fun c => c.length + 1).sum
decreasing_by
  all_goals simp only [List.map_cons, List.sum_cons, List.length_drop]
  all_goals omega

/-- Modelled from the spec: truncation to `max_lines` (spec section 4.1):
when more lines would be produced, keep the first `max_lines` lines and
truncate the last retained line so that the placeholder marker fits the
target width. -/
def applyMaxLines (cfg : Config) (raw : List (List Char)) : List (List Char) :=
  match cfg.max_lines with
  | none => raw
  | some m =>
    if raw.length ≤ m then raw
    else
      (raw.take m).dropLast ++
        [((raw.take m).getLastD []).take (cfg.width - (cfg.placeholder.length : Int)).toNat ++
          cfg.placeholder]

/-- Modelled from the spec: the greedy wrapper contract of spec sections
3, 4.1 and 7 (the parent class's `_wrap_chunks`, not in this repository's
sources): a configuration whose width is non-positive or does not exceed
an indent string is a `ConfigurationError` (`none`), surfaced immediately;
otherwise the chunks of the text are packed greedily. -/
def greedyWrap (cfg : Config) (text : List Char) : Option (List (List Char)) :=
  if cfg.width ≤ 0 ∨ cfg.width ≤ (cfg.initial_indent.length : Int) ∨
      cfg.width ≤ (cfg.subsequent_indent.length : Int) then none
  else some (applyMaxLines cfg
    (greedyPack cfg.width cfg.subsequent_indent cfg.initial_indent true (splitChunks text)))

/-- `TextWrapper.wrap` of `jtextwrap.py` lines 105-108: collapse space
runs and strip, then the parent greedy wrap followed by the justification
pass of the overridden `_wrap_chunks`. -/
def wrapModel (cfg : Config) (shuffle : List Int → List Int) (text : List Char) :
    Option (List (List Char)) :=
  (greedyWrap cfg (collapseSpaces (pyStrip text))).bind fun lines =>
    justifyLines cfg shuffle lines

/-- `TextWrapper.fill` of `jtextwrap.py` lines 110-113: `wrap` joined
with newlines. -/
def fillModel (cfg : Config) (shuffle : List Int → List Int) (text : List Char) :
    Option (List Char) :=
  (wrapModel cfg shuffle text).map (List.intercalate ['\n'])

/-- `shorten` of `jtextwrap.py` lines 127-130: normalize all whitespace
runs to single spaces (`' '.join(text.strip().split())`), then `fill` with
`max_lines = 1`. -/
def shortenModel (cfg : Config) (shuffle : List Int → List Int) (text : List Char) :
    Option (List Char) :=
  fillModel { cfg with max_lines := some 1 } shuffle
    (List.intercalate [' '] ((splitChunks text).filter fun c => !chunkWs c))

/-! ### Invariants of the chunk splitter -/

theorem splitChunks_flatten (l : List Char) : (splitChunks l).flatten = l := by
  induction l with
  | nil => rfl
  | cons c rest ih =>
    rw [splitChunks]
    cases h : splitChunks rest with
    | nil =>
      rw [h] at ih
      simpa using ih
    | cons c0 chs =>
      rw [h] at ih
      cases c0 with
      | nil => simpa using ih
      | cons d ds =>
        by_cases hw : c.isWhitespace = d.isWhitespace
        · simpa [hw] using ih
        · simpa [hw] using ih

theorem splitChunks_ne_nil (l : List Char) :
    ∀ c ∈ splitChunks l, c ≠ [] := by
  induction l with
  | nil => intro c hc; simp [splitChunks] at hc
  | cons c rest ih =>
    rw [splitChunks]
    cases h : splitChunks rest with
    | nil => intro x hx; simp at hx; simp [hx]
    | cons c0 chs =>
      rw [h] at ih
      cases c0 with
      | nil => exact absurd rfl (ih [] (by simp))
      | cons d ds =>
        by_cases hw : c.isWhitespace = d.isWhitespace
        · simp only [hw, if_pos rfl]
          intro x hx
          rcases List.mem_cons.mp hx with h1 | h1
          · simp [h1]
          · exact ih x (List.mem_cons_of_mem _ h1)
        · simp only [if_neg hw]
          intro x hx
          rcases List.mem_cons.mp hx with h1 | h1
          · simp [h1]
          · exact ih x h1

theorem splitChunks_uniform (l : List Char) :
    ∀ c ∈ splitChunks l, ∀ a ∈ c, a.isWhitespace = chunkWs c := by
  induction l with
  | nil => intro c hc; simp [splitChunks] at hc
  | cons c rest ih =>
    rw [splitChunks]
    cases h : splitChunks rest with
    | nil =>
      intro x hx a ha
      simp at hx
      subst hx
      simp at ha
      simp [ha, chunkWs]
    | cons c0 chs =>
      rw [h] at ih
      cases c0 with
      | nil => exact absurd rfl (splitChunks_ne_nil rest [] (h ▸ by simp))
      | cons d ds =>
        by_cases hw : c.isWhitespace = d.isWhitespace
        · simp only [hw, if_pos rfl]
          intro x hx a ha
          rcases List.mem_cons.mp hx with h1 | h1
          · subst h1
            rcases List.mem_cons.mp ha with h2 | h2
            · subst h2; simp [chunkWs, hw]
            · have := ih (d :: ds) (by simp) a h2
              simpa [chunkWs, hw] using this
          · exact ih x (List.mem_cons_of_mem _ h1) a ha
        · simp only [if_neg hw]
          intro x hx a ha
          rcases List.mem_cons.mp hx with h1 | h1
          · subst h1
            simp at ha
            simp [ha, chunkWs]
          · exact ih x h1 a ha

theorem splitChunks_alt (l : List Char) :
    List.Chain' (fun a b => chunkWs a ≠ chunkWs b) (splitChunks l) := by
  induction l with
  | nil => simp [splitChunks]
  | cons c rest ih =>
    rw [splitChunks]
    cases h : splitChunks rest with
    | nil => simp
    | cons c0 chs =>
      rw [h] at ih
      cases c0 with
      | nil => exact absurd rfl (splitChunks_ne_nil rest [] (h ▸ by simp))
      | cons d ds =>
        by_cases hw : c.isWhitespace = d.isWhitespace
        · simp only [hw, eq_self_iff_true, if_true]
          cases chs with
          | nil => simp
          | cons e es =>
            rw [List.chain'_cons] at ih ⊢
            refine ⟨?_, ih.2⟩
            have := ih.1
            simpa [chunkWs, hw] using this
        · simp only [if_neg hw]
          rw [List.chain'_cons]
          refine ⟨?_, ih⟩
          simp [chunkWs, hw]

example : splitChunks ['a', ' ', 'b', 'b'] = [['a'], [' '], ['b', 'b']] := by decide
/-! ### The distribution list -/

theorem pyDistribute_pos_eq (num len : Int) (h : 0 < len) :
    pyDistribute num len =
      some (List.replicate (num.fmod len).toNat (num.fdiv len + 1) ++
        List.replicate (len.toNat - (num.fmod len).toNat) (num.fdiv len)) := by
  have hk0 : 0 ≤ num.fmod len := Int.fmod_nonneg' num h
  have hk1 : num.fmod len < len := Int.fmod_lt_of_pos num h
  have hkn : (num.fmod len).toNat ≤ len.toNat := by omega
  rw [pyDistribute, if_neg (by omega)]
  simp only [List.take_replicate, List.map_replicate, List.drop_replicate,
    Nat.min_eq_left hkn]

theorem pyDistribute_neg_eq (num len : Int) (h : len < 0) :
    pyDistribute num len = some [] := by
  rw [pyDistribute, if_neg (by omega)]
  have : len.toNat = 0 := by omega
  simp [this]

theorem pyDistribute_pos_length (num len : Int) (h : 0 < len) (d : List Int)
    (hd : pyDistribute num len = some d) : d.length = len.toNat := by
  rw [pyDistribute_pos_eq num len h] at hd
  have hk0 : 0 ≤ num.fmod len := Int.fmod_nonneg' num h
  have hk1 : num.fmod len < len := Int.fmod_lt_of_pos num h
  cases hd
  simp only [List.length_append, List.length_replicate]
  omega

theorem pyDistribute_pos_sum (num len : Int) (h : 0 < len) (d : List Int)
    (hd : pyDistribute num len = some d) : d.sum = num := by
  rw [pyDistribute_pos_eq num len h] at hd
  have hk0 : 0 ≤ num.fmod len := Int.fmod_nonneg' num h
  have hk1 : num.fmod len < len := Int.fmod_lt_of_pos num h
  cases hd
  rw [List.sum_append, List.sum_replicate, List.sum_replicate, nsmul_eq_mul, nsmul_eq_mul]
  have hmf : num.fmod len + len * num.fdiv len = num := Int.fmod_add_fdiv num len
  have h1 : ((num.fmod len).toNat : Int) = num.fmod len := Int.toNat_of_nonneg hk0
  have h2 : ((len.toNat - (num.fmod len).toNat : Nat) : Int) = len - num.fmod len := by
    omega
  rw [h1, h2]
  linear_combination hmf

theorem pyDistribute_nonneg (num len : Int) (hn : 0 ≤ num) (h : 0 < len) (d : List Int)
    (hd : pyDistribute num len = some d) : ∀ a ∈ d, 0 ≤ a := by
  rw [pyDistribute_pos_eq num len h] at hd
  cases hd
  intro a ha
  have hb : 0 ≤ num.fdiv len := Int.fdiv_nonneg hn (le_of_lt h)
  rcases List.mem_append.mp ha with h1 | h1
  · have := List.eq_of_mem_replicate h1
    omega
  · have := List.eq_of_mem_replicate h1
    omega

/-! ### The widening loop -/

theorem widen_cons (ch : List Char) (rest : List (List Char)) (q : List Int) :
    widen (ch :: rest) q =
      if ch = [' '] then
        match q with
        | [] => none
        | a :: q2 => (widen rest q2).map (fun r => List.replicate (a + 1).toNat ' ' :: r)
      else (widen rest q).map (fun r => ch :: r) := by
  rw [widen.eq_def]

theorem widen_some (chunks : List (List Char)) (q : List Int)
    (h : List.count [' '] chunks ≤ q.length) : ∃ r, widen chunks q = some r := by
  induction chunks generalizing q with
  | nil => exact ⟨[], rfl⟩
  | cons ch rest ih =>
    rw [widen_cons]
    by_cases hc : ch = [' ']
    · rw [if_pos hc]
      cases q with
      | nil =>
        rw [List.count_cons] at h
        simp [hc] at h
      | cons a q2 =>
        rw [List.count_cons] at h
        simp only [hc, List.length_cons] at h
        have h2 : List.count [' '] rest ≤ q2.length := by
          simp at h; omega
        obtain ⟨r, hr⟩ := ih q2 h2
        exact ⟨List.replicate (a + 1).toNat ' ' :: r, by simp [hr]⟩
    · rw [if_neg hc]
      have h2 : List.count [' '] rest ≤ q.length := by
        rw [List.count_cons] at h
        simp [hc] at h
        omega
      obtain ⟨r, hr⟩ := ih q h2
      exact ⟨ch :: r, by simp [hr]⟩

theorem widen_flatten_length (chunks : List (List Char)) (q : List Int)
    (h : List.count [' '] chunks = q.length) (hq : ∀ a ∈ q, 0 ≤ a) :
    ∃ r, widen chunks q = some r ∧
      (r.flatten.length : Int) = (chunks.flatten.length : Int) + q.sum := by
  induction chunks generalizing q with
  | nil =>
    have : q = [] := by
      rw [List.count_nil] at h
      exact (List.eq_nil_of_length_eq_zero h.symm)
    subst this
    exact ⟨[], rfl, by simp⟩
  | cons ch rest ih =>
    rw [widen_cons]
    by_cases hc : ch = [' ']
    · rw [if_pos hc]
      cases q with
      | nil =>
        rw [List.count_cons] at h
        simp [hc] at h
      | cons a q2 =>
        rw [List.count_cons] at h
        simp only [hc, List.length_cons] at h
        have h2 : List.count [' '] rest = q2.length := by
          simp at h; omega
        have ha : 0 ≤ a := hq a (by simp)
        obtain ⟨r, hr, hlen⟩ := ih q2 h2 (fun b hb => hq b (by simp [hb]))
        refine ⟨List.replicate (a + 1).toNat ' ' :: r, by simp [hr], ?_⟩
        subst hc
        simp only [List.flatten_cons, List.length_append, List.length_replicate,
          List.sum_cons, List.length_cons, List.length_nil]
        push_cast
        omega
    · rw [if_neg hc]
      have h2 : List.count [' '] rest = q.length := by
        rw [List.count_cons] at h
        simp [hc] at h
        omega
      obtain ⟨r, hr, hlen⟩ := ih q h2 hq
      refine ⟨ch :: r, by simp [hr], ?_⟩
      simp only [List.flatten_cons, List.length_append]
      push_cast
      omega

theorem widen_zeros (chunks : List (List Char)) (q : List Int)
    (hz : ∀ a ∈ q, a = 0) (h : List.count [' '] chunks ≤ q.length) :
    widen chunks q = some chunks := by
  induction chunks generalizing q with
  | nil => rfl
  | cons ch rest ih =>
    rw [widen_cons]
    by_cases hc : ch = [' ']
    · rw [if_pos hc]
      cases q with
      | nil =>
        rw [List.count_cons] at h
        simp [hc] at h
      | cons a q2 =>
        rw [List.count_cons] at h
        simp only [hc, List.length_cons] at h
        have h2 : List.count [' '] rest ≤ q2.length := by
          simp at h; omega
        have ha : a = 0 := hz a (by simp)
        have hw2 := ih q2 (fun b hb => hz b (by simp [hb])) h2
        subst ha hc
        simp [hw2]
    · rw [if_neg hc]
      have h2 : List.count [' '] rest ≤ q.length := by
        rw [List.count_cons] at h
        simp [hc] at h
        omega
      rw [ih q hz h2]
      rfl

theorem widen_decomp (pre post : List (List Char)) (q : List Int) (a : Int)
    (hpre : [' '] ∉ pre) :
    widen (pre ++ [' '] :: post) (a :: q) =
      (widen post q).map (fun r => pre ++ List.replicate (a + 1).toNat ' ' :: r) := by
  induction pre with
  | nil =>
    rw [List.nil_append, widen, if_pos rfl]
    cases widen post q with
    | none => rfl
    | some r => rfl
  | cons ch rest ih =>
    have hch : ch ≠ [' '] := fun hc => hpre (by simp [hc])
    have hrest : [' '] ∉ rest := fun hr => hpre (by simp [hr])
    rw [List.cons_append, widen, if_neg hch, ih hrest]
    cases widen post q with
    | none => rfl
    | some r => rfl

/-! ### Behaviour of the per-line justification -/

theorem justifyLine_gap_zero (cfg : Config) (shuffle : List Int → List Int)
    (line : List Char) (h : gapCount cfg line = 0) :
    justifyLine cfg shuffle line = some line := by
  simp [justifyLine, h]

theorem justifyLine_of_gap_ne (cfg : Config) (shuffle : List Int → List Int)
    (line : List Char) (hg : gapCount cfg line ≠ 0) :
    justifyLine cfg shuffle line =
      match pyDistribute (cfg.width - (line.length : Int)) (gapCount cfg line) with
      | none => none
      | some d =>
        match widen (splitChunks line)
            (if indentActive cfg then 0 :: (if cfg.random_spacing then shuffle d else d)
             else (if cfg.random_spacing then shuffle d else d)) with
        | none => none
        | some r => some r.flatten := by
  rw [justifyLine]
  simp only [if_neg hg]

theorem gapCount_eq (cfg : Config) (line : List Char) :
    gapCount cfg line =
      (List.count [' '] (splitChunks line) : Int) - (if indentActive cfg then 1 else 0) :=
  rfl

theorem shuffled_length (shuffle : List Int → List Int) (hs : IsShuffle shuffle)
    (rs : Bool) (d : List Int) :
    (if rs then shuffle d else d).length = d.length := by
  cases rs
  · rfl
  · simpa using (hs d).length_eq

theorem shuffled_sum (shuffle : List Int → List Int) (hs : IsShuffle shuffle)
    (rs : Bool) (d : List Int) :
    (if rs then shuffle d else d).sum = d.sum := by
  cases rs
  · rfl
  · simpa using (hs d).sum_eq

theorem shuffled_mem (shuffle : List Int → List Int) (hs : IsShuffle shuffle)
    (rs : Bool) (d : List Int) (a : Int) (ha : a ∈ (if rs then shuffle d else d)) :
    a ∈ d := by
  cases rs
  · simpa using ha
  · exact ((hs d).mem_iff).mp (by simpa using ha)

theorem justifyLine_of_dist (cfg : Config) (shuffle : List Int → List Int)
    (line : List Char) (d : List Int) (hg : gapCount cfg line ≠ 0)
    (hd : pyDistribute (cfg.width - (line.length : Int)) (gapCount cfg line) = some d) :
    justifyLine cfg shuffle line =
      match widen (splitChunks line)
          (if indentActive cfg then 0 :: (if cfg.random_spacing then shuffle d else d)
           else (if cfg.random_spacing then shuffle d else d)) with
      | none => none
      | some r => some r.flatten := by
  rw [justifyLine_of_gap_ne cfg shuffle line hg, hd]

theorem justifyLine_of_widen (cfg : Config) (shuffle : List Int → List Int)
    (line : List Char) (d : List Int) (r : List (List Char))
    (hg : gapCount cfg line ≠ 0)
    (hd : pyDistribute (cfg.width - (line.length : Int)) (gapCount cfg line) = some d)
    (hw : widen (splitChunks line)
        (if indentActive cfg then 0 :: (if cfg.random_spacing then shuffle d else d)
         else (if cfg.random_spacing then shuffle d else d)) = some r) :
    justifyLine cfg shuffle line = some r.flatten := by
  rw [justifyLine_of_dist cfg shuffle line d hg hd, hw]

theorem justifyLine_some (cfg : Config) (shuffle : List Int → List Int)
    (hs : IsShuffle shuffle) (line : List Char) :
    ∃ out, justifyLine cfg shuffle line = some out := by
  by_cases hg : gapCount cfg line = 0
  · exact ⟨line, justifyLine_gap_zero cfg shuffle line hg⟩
  have hgc := gapCount_eq cfg line
  rcases lt_trichotomy (gapCount cfg line) 0 with hlt | heq | hgt
  · have hind : indentActive cfg = true := by
      by_cases hi : indentActive cfg
      · exact hi
      · simp [hi] at hgc; omega
    have hc0 : List.count [' '] (splitChunks line) = 0 := by
      simp [hind] at hgc; omega
    have hnil : (if cfg.random_spacing then shuffle [] else []) = [] := by
      cases hrs : cfg.random_spacing
      · rfl
      · simpa using (hs []).eq_nil
    have hqeq : (if indentActive cfg then 0 :: (if cfg.random_spacing then shuffle [] else [])
        else (if cfg.random_spacing then shuffle [] else [])) = [0] := by
      rw [if_pos hind, hnil]
    obtain ⟨r, hr⟩ := widen_some (splitChunks line) [0] (by rw [hc0]; simp)
    refine ⟨r.flatten, justifyLine_of_widen cfg shuffle line [] r hg
      (pyDistribute_neg_eq _ _ hlt) ?_⟩
    rw [hqeq]
    exact hr
  · exact absurd heq hg
  · obtain ⟨d, hd⟩ : ∃ d,
        pyDistribute (cfg.width - (line.length : Int)) (gapCount cfg line) = some d := by
      rw [pyDistribute_pos_eq _ _ hgt]; exact ⟨_, rfl⟩
    have hlend : d.length = (gapCount cfg line).toNat :=
      pyDistribute_pos_length _ _ hgt d hd
    have hlen1 : (if cfg.random_spacing then shuffle d else d).length =
        (gapCount cfg line).toNat := by
      rw [shuffled_length shuffle hs _ d, hlend]
    by_cases hi : indentActive cfg
    · have hcount : List.count [' '] (splitChunks line) = (gapCount cfg line).toNat + 1 := by
        simp [hi] at hgc; omega
      obtain ⟨r, hr⟩ := widen_some (splitChunks line)
        (0 :: (if cfg.random_spacing then shuffle d else d))
        (by simp [hcount, hlen1])
      refine ⟨r.flatten, justifyLine_of_widen cfg shuffle line d r hg hd ?_⟩
      rw [if_pos hi]
      exact hr
    · have hcount : List.count [' '] (splitChunks line) = (gapCount cfg line).toNat := by
        simp [hi] at hgc; omega
      obtain ⟨r, hr⟩ := widen_some (splitChunks line)
        (if cfg.random_spacing then shuffle d else d) (by simp [hcount, hlen1])
      refine ⟨r.flatten, justifyLine_of_widen cfg shuffle line d r hg hd ?_⟩
      rw [if_neg hi]
      exact hr

theorem justifyLine_exact (cfg : Config) (shuffle : List Int → List Int)
    (hs : IsShuffle shuffle) (line : List Char)
    (hg : 0 < gapCount cfg line) (hd : 0 ≤ cfg.width - (line.length : Int)) :
    ∃ out, justifyLine cfg shuffle line = some out ∧ (out.length : Int) = cfg.width := by
  have hgne : gapCount cfg line ≠ 0 := by omega
  have hgc := gapCount_eq cfg line
  obtain ⟨d, hdist⟩ : ∃ d,
      pyDistribute (cfg.width - (line.length : Int)) (gapCount cfg line) = some d := by
    rw [pyDistribute_pos_eq _ _ hg]; exact ⟨_, rfl⟩
  have hlend : d.length = (gapCount cfg line).toNat :=
    pyDistribute_pos_length _ _ hg d hdist
  have hsumd : d.sum = cfg.width - (line.length : Int) :=
    pyDistribute_pos_sum _ _ hg d hdist
  have hnonneg : ∀ a ∈ d, 0 ≤ a := pyDistribute_nonneg _ _ hd hg d hdist
  have hlen1 : (if cfg.random_spacing then shuffle d else d).length =
      (gapCount cfg line).toNat := by
    rw [shuffled_length shuffle hs _ d, hlend]
  have hsum1 : (if cfg.random_spacing then shuffle d else d).sum =
      cfg.width - (line.length : Int) := by
    rw [shuffled_sum shuffle hs _ d, hsumd]
  have hnn1 : ∀ a ∈ (if cfg.random_spacing then shuffle d else d), 0 ≤ a :=
    fun a ha => hnonneg a (shuffled_mem shuffle hs _ d a ha)
  by_cases hi : indentActive cfg
  · have hcount : List.count [' '] (splitChunks line) = (gapCount cfg line).toNat + 1 := by
      simp [hi] at hgc; omega
    obtain ⟨r, hr, hlen⟩ := widen_flatten_length (splitChunks line)
      (0 :: (if cfg.random_spacing then shuffle d else d))
      (by simp [hcount, hlen1])
      (by
        intro a ha
        rcases List.mem_cons.mp ha with h1 | h1
        · omega
        · exact hnn1 a h1)
    refine ⟨r.flatten, justifyLine_of_widen cfg shuffle line d r hgne hdist ?_, ?_⟩
    · rw [if_pos hi]
      exact hr
    · rw [hlen, splitChunks_flatten]
      simp only [List.sum_cons, hsum1]
      omega
  · have hcount : List.count [' '] (splitChunks line) = (gapCount cfg line).toNat := by
      simp [hi] at hgc; omega
    obtain ⟨r, hr, hlen⟩ := widen_flatten_length (splitChunks line)
      (if cfg.random_spacing then shuffle d else d) (by simp [hcount, hlen1]) hnn1
    refine ⟨r.flatten, justifyLine_of_widen cfg shuffle line d r hgne hdist ?_, ?_⟩
    · rw [if_neg hi]
      exact hr
    · rw [hlen, splitChunks_flatten, hsum1]
      omega

theorem justifyLine_deficit_zero (cfg : Config) (shuffle : List Int → List Int)
    (hs : IsShuffle shuffle) (line : List Char)
    (hd : cfg.width = (line.length : Int)) :
    justifyLine cfg shuffle line = some line := by
  by_cases hg : gapCount cfg line = 0
  · exact justifyLine_gap_zero cfg shuffle line hg
  have hgc := gapCount_eq cfg line
  have hjlen : cfg.width - (line.length : Int) = 0 := by omega
  rcases lt_trichotomy (gapCount cfg line) 0 with hlt | heq | hgt
  · have hind : indentActive cfg = true := by
      by_cases hi : indentActive cfg
      · exact hi
      · simp [hi] at hgc; omega
    have hc0 : List.count [' '] (splitChunks line) = 0 := by
      simp [hind] at hgc; omega
    have hnil : (if cfg.random_spacing then shuffle [] else []) = [] := by
      cases hrs : cfg.random_spacing
      · rfl
      · simpa using (hs []).eq_nil
    have hw : widen (splitChunks line) [0] = some (splitChunks line) :=
      widen_zeros (splitChunks line) [0] (by simp) (by rw [hc0]; simp)
    have := justifyLine_of_widen cfg shuffle line [] (splitChunks line) hg
      (by rw [hjlen]; exact pyDistribute_neg_eq _ _ hlt)
      (by rw [if_pos hind, hnil]; exact hw)
    rw [this, splitChunks_flatten]
  · exact absurd heq hg
  · obtain ⟨d, hdist⟩ : ∃ d,
        pyDistribute (cfg.width - (line.length : Int)) (gapCount cfg line) = some d := by
      rw [pyDistribute_pos_eq _ _ hgt]; exact ⟨_, rfl⟩
    have hzero : ∀ a ∈ d, a = 0 := by
      rw [hjlen, pyDistribute_pos_eq _ _ hgt] at hdist
      cases hdist
      intro a ha
      rcases List.mem_append.mp ha with h1 | h1
      · have h3 : (0 : Int).fmod (gapCount cfg line) = 0 := Int.zero_fmod _
        rw [h3] at h1
        simp at h1
      · have h2 := List.eq_of_mem_replicate h1
        rw [Int.zero_fdiv] at h2
        exact h2
    have hlend : d.length = (gapCount cfg line).toNat :=
      pyDistribute_pos_length _ _ hgt d hdist
    have hz1 : ∀ a ∈ (if cfg.random_spacing then shuffle d else d), a = 0 :=
      fun a ha => hzero a (shuffled_mem shuffle hs _ d a ha)
    have hlen1 : (if cfg.random_spacing then shuffle d else d).length =
        (gapCount cfg line).toNat := by
      rw [shuffled_length shuffle hs _ d, hlend]
    by_cases hi : indentActive cfg
    · have hcount : List.count [' '] (splitChunks line) = (gapCount cfg line).toNat + 1 := by
        simp [hi] at hgc; omega
      have hw : widen (splitChunks line)
          (0 :: (if cfg.random_spacing then shuffle d else d)) = some (splitChunks line) :=
        widen_zeros (splitChunks line) _
          (by
            intro a ha
            rcases List.mem_cons.mp ha with h1 | h1
            · exact h1
            · exact hz1 a h1)
          (by simp [hcount, hlen1])
      have := justifyLine_of_widen cfg shuffle line d (splitChunks line) hg hdist
        (by rw [if_pos hi]; exact hw)
      rw [this, splitChunks_flatten]
    · have hcount : List.count [' '] (splitChunks line) = (gapCount cfg line).toNat := by
        simp [hi] at hgc; omega
      have hw : widen (splitChunks line)
          (if cfg.random_spacing then shuffle d else d) = some (splitChunks line) :=
        widen_zeros (splitChunks line) _ hz1 (by simp [hcount, hlen1])
      have := justifyLine_of_widen cfg shuffle line d (splitChunks line) hg hdist
        (by rw [if_neg hi]; exact hw)
      rw [this, splitChunks_flatten]

/-! ### The lifted justification pass -/

theorem optionMap_nil (f : α → Option β) : optionMap f [] = some [] := rfl

theorem optionMap_cons (f : α → Option β) (a : α) (l : List α) :
    optionMap f (a :: l) =
      match f a, optionMap f l with
      | some b, some r => some (b :: r)
      | _, _ => none := by
  rw [optionMap]

theorem optionMap_cons_some (f : α → Option β) (a : α) (l : List α) (b : β) (r : List β)
    (ha : f a = some b) (hl : optionMap f l = some r) :
    optionMap f (a :: l) = some (b :: r) := by
  rw [optionMap_cons, ha, hl]

theorem optionMap_length (f : α → Option β) (l : List α) (r : List β)
    (h : optionMap f l = some r) : r.length = l.length := by
  induction l generalizing r with
  | nil =>
    rw [optionMap_nil] at h
    cases h
    rfl
  | cons a l ih =>
    rw [optionMap_cons] at h
    cases hf : f a with
    | none => rw [hf] at h; simp at h
    | some b =>
      rw [hf] at h
      cases hm : optionMap f l with
      | none => rw [hm] at h; simp at h
      | some rs =>
        rw [hm] at h
        simp at h
        subst h
        simp [ih rs hm]

theorem optionMap_concat (f : α → Option β) (l : List α) (x : α) (r : List β)
    (h : optionMap f (l ++ [x]) = some r) :
    ∃ rs b, r = rs ++ [b] ∧ optionMap f l = some rs ∧ f x = some b := by
  induction l generalizing r with
  | nil =>
    rw [List.nil_append, optionMap_cons] at h
    cases hf : f x with
    | none => rw [hf] at h; simp at h
    | some b =>
      rw [hf, optionMap_nil] at h
      simp at h
      exact ⟨[], b, h.symm, rfl, rfl⟩
  | cons a l ih =>
    rw [List.cons_append, optionMap_cons] at h
    cases hf : f a with
    | none => rw [hf] at h; simp at h
    | some b =>
      rw [hf] at h
      cases hm : optionMap f (l ++ [x]) with
      | none => rw [hm] at h; simp at h
      | some rs =>
        rw [hm] at h
        simp at h
        obtain ⟨rs2, b2, hr2, hm2, hx2⟩ := ih rs hm
        exact ⟨b :: rs2, b2, by rw [← h, hr2]; rfl,
          optionMap_cons_some f a l b rs2 hf hm2, hx2⟩

theorem optionMap_getD (f : α → Option β) (l : List α) (r : List β)
    (h : optionMap f l = some r) (i : Nat) (hi : i < l.length) (da : α) (db : β) :
    f (l.getD i da) = some (r.getD i db) := by
  induction l generalizing r i with
  | nil => simp at hi
  | cons a l ih =>
    rw [optionMap_cons] at h
    cases hf : f a with
    | none => rw [hf] at h; simp at h
    | some b =>
      rw [hf] at h
      cases hm : optionMap f l with
      | none => rw [hm] at h; simp at h
      | some rs =>
        rw [hm] at h
        simp at h
        subst h
        cases i with
        | zero => simpa using hf
        | succ j =>
          simp only [List.getD_cons_succ]
          exact ih rs hm j (by simpa using hi)

theorem optionMap_all_some (f : α → Option β) (l : List α)
    (h : ∀ a ∈ l, ∃ b, f a = some b) : ∃ r, optionMap f l = some r := by
  induction l with
  | nil => exact ⟨[], rfl⟩
  | cons a l ih =>
    obtain ⟨b, hb⟩ := h a (by simp)
    obtain ⟨r, hr⟩ := ih (fun x hx => h x (by simp [hx]))
    exact ⟨b :: r, optionMap_cons_some f a l b r hb hr⟩

theorem optionMap_congr (f g : α → Option β) (l : List α)
    (h : ∀ a ∈ l, f a = g a) : optionMap f l = optionMap g l := by
  induction l with
  | nil => rfl
  | cons a l ih =>
    rw [optionMap_cons, optionMap_cons, h a (by simp),
      ih (fun x hx => h x (by simp [hx]))]

theorem justifyLines_not_justify (cfg : Config) (shuffle : List Int → List Int)
    (lines : List (List Char)) (hj : cfg.justify = false) :
    justifyLines cfg shuffle lines = some lines := by
  simp [justifyLines, hj]

theorem justifyLines_nil (cfg : Config) (shuffle : List Int → List Int) :
    justifyLines cfg shuffle [] = some [] := by
  by_cases hj : cfg.justify
  · simp [justifyLines, hj]
  · simp [justifyLines, hj]

theorem justifyLines_cons_eq (cfg : Config) (shuffle : List Int → List Int)
    (a : List Char) (as : List (List Char)) (hj : cfg.justify = true) :
    justifyLines cfg shuffle (a :: as) =
      (optionMap (justifyLine cfg shuffle) (a :: as)).bind fun jl =>
        (lastLine cfg ((a :: as).getLastD []) (jl.getLastD [])).map fun jlast =>
          jl.dropLast ++ [jlast] := by
  rw [justifyLines]
  simp [hj]

theorem justifyLines_inv (cfg : Config) (shuffle : List Int → List Int)
    (lines out : List (List Char)) (hj : cfg.justify = true) (hne : lines ≠ [])
    (h : justifyLines cfg shuffle lines = some out) :
    ∃ jl jlast, optionMap (justifyLine cfg shuffle) lines = some jl ∧
      lastLine cfg (lines.getLastD []) (jl.getLastD []) = some jlast ∧
      out = jl.dropLast ++ [jlast] := by
  cases lines with
  | nil => exact absurd rfl hne
  | cons a as =>
    rw [justifyLines_cons_eq cfg shuffle a as hj] at h
    rw [Option.bind_eq_some] at h
    obtain ⟨jl, hjl, h2⟩ := h
    rw [Option.map_eq_some'] at h2
    obtain ⟨jlast, hjlast, h3⟩ := h2
    exact ⟨jl, jlast, hjl, hjlast, h3.symm⟩

theorem justifyLines_intro (cfg : Config) (shuffle : List Int → List Int)
    (lines jl : List (List Char)) (jlast : List Char)
    (hj : cfg.justify = true) (hne : lines ≠ [])
    (hmap : optionMap (justifyLine cfg shuffle) lines = some jl)
    (hlast : lastLine cfg (lines.getLastD []) (jl.getLastD []) = some jlast) :
    justifyLines cfg shuffle lines = some (jl.dropLast ++ [jlast]) := by
  cases lines with
  | nil => exact absurd rfl hne
  | cons a as =>
    rw [justifyLines_cons_eq cfg shuffle a as hj, hmap]
    simp only [Option.some_bind]
    rw [hlast]
    rfl

/-! ### Further helpers: padding, indent condition, determinism -/

theorem rjust_length (w : Int) (s : List Char) (h : (s.length : Int) ≤ w) :
    ((rjust w s).length : Int) = w := by
  rw [rjust]
  simp only [List.length_append, List.length_replicate]
  omega

theorem indentActive_true_iff (cfg : Config) (hji : cfg.justify_indent = false) :
    indentActive cfg = true ↔ (cfg.initial_indent ≠ [] ∨ cfg.subsequent_indent ≠ []) := by
  simp [indentActive, hji, List.isEmpty_iff]

theorem justifyLine_shuffle_congr (cfg : Config) (s1 s2 : List Int → List Int)
    (line : List Char) (hr : cfg.random_spacing = false) :
    justifyLine cfg s1 line = justifyLine cfg s2 line := by
  by_cases hg : gapCount cfg line = 0
  · rw [justifyLine_gap_zero cfg s1 line hg, justifyLine_gap_zero cfg s2 line hg]
  · rw [justifyLine_of_gap_ne cfg s1 line hg, justifyLine_of_gap_ne cfg s2 line hg]
    simp only [hr, Bool.false_eq_true, if_false]

theorem justifyLines_shuffle_congr (cfg : Config) (s1 s2 : List Int → List Int)
    (lines : List (List Char)) (hr : cfg.random_spacing = false) :
    justifyLines cfg s1 lines = justifyLines cfg s2 lines := by
  have hcong := optionMap_congr (justifyLine cfg s1) (justifyLine cfg s2) lines
    (fun a _ => justifyLine_shuffle_congr cfg s1 s2 a hr)
  cases hjv : cfg.justify with
  | false =>
    rw [justifyLines_not_justify cfg s1 lines hjv, justifyLines_not_justify cfg s2 lines hjv]
  | true =>
    cases lines with
    | nil => rw [justifyLines_nil, justifyLines_nil]
    | cons a as =>
      rw [justifyLines_cons_eq cfg s1 a as hjv, justifyLines_cons_eq cfg s2 a as hjv, hcong]

/-! ### Claims -/

/-- Claim C3: the last-line policy is applied only to the final wrapped
line, on top of the regular justification pass: `left` emits the original
greedily wrapped last line unchanged, `right` emits it right-justified by
leading-space padding (length exactly the width whenever it fits),
`center` emits it centered with trailing spaces stripped, and `full`
emits the fully justified candidate the per-line algorithm produced. -/
theorem last_line_policy (cfg : Config) (shuffle : List Int → List Int)
    (ls : List (List Char)) (l : List Char) (out : List (List Char))
    (hj : cfg.justify = true)
    (h : justifyLines cfg shuffle (ls ++ [l]) = some out) :
    optionMap (justifyLine cfg shuffle) ls = some out.dropLast ∧
    (cfg.justify_last = "left" → out.getLast? = some l) ∧
    (cfg.justify_last = "right" → out.getLast? = some (rjust cfg.width l) ∧
      ((l.length : Int) ≤ cfg.width → ((rjust cfg.width l).length : Int) = cfg.width)) ∧
    (cfg.justify_last = "center" → out.getLast? = some (rstrip (pyCenter cfg.width l))) ∧
    (cfg.justify_last = "full" →
      ∃ j, justifyLine cfg shuffle l = some j ∧ out.getLast? = some j) := by
  obtain ⟨jl, jlast, hmap, hlast, hout⟩ :=
    justifyLines_inv cfg shuffle (ls ++ [l]) out hj (by simp) h
  obtain ⟨rs, b, hjl, hmapls, hfl⟩ := optionMap_concat _ ls l jl hmap
  have hgl : (ls ++ [l]).getLastD [] = l := List.getLastD_concat _ _ _
  have hglj : jl.getLastD [] = b := by
    rw [hjl]
    exact List.getLastD_concat _ _ _
  rw [hgl, hglj] at hlast
  have hdrop : out.dropLast = rs := by
    rw [hout, hjl]
    simp
  have hlastout : out.getLast? = some jlast := by
    rw [hout]
    exact List.getLast?_concat _
  refine ⟨by rw [hdrop]; exact hmapls, ?_, ?_, ?_, ?_⟩
  · intro hp
    rw [lastLine, if_pos hp] at hlast
    cases hlast
    exact hlastout
  · intro hp
    have h1 : ¬cfg.justify_last = "left" := by simp [hp]
    rw [lastLine, if_neg h1, if_pos hp] at hlast
    cases hlast
    exact ⟨hlastout, fun hle => rjust_length cfg.width l hle⟩
  · intro hp
    have h1 : ¬cfg.justify_last = "left" := by simp [hp]
    have h2 : ¬cfg.justify_last = "right" := by simp [hp]
    rw [lastLine, if_neg h1, if_neg h2, if_pos hp] at hlast
    cases hlast
    exact hlastout
  · intro hp
    have h1 : ¬cfg.justify_last = "left" := by simp [hp]
    have h2 : ¬cfg.justify_last = "right" := by simp [hp]
    have h3 : ¬cfg.justify_last = "center" := by simp [hp]
    rw [lastLine, if_neg h1, if_neg h2, if_neg h3, if_pos hp] at hlast
    have heq : b = jlast := Option.some.inj hlast
    exact ⟨jlast, by rw [← heq]; exact hfl, hlastout⟩

/-- Witness for C3 with the `left` policy on the single line `"hi"`. -/
theorem last_line_policy_witness :
    justifyLines ⟨5, [], [], true, false, "left", false, none, []⟩ (fun x => x)
      ([] ++ [['h', 'i']]) = some [['h', 'i']] ∧
    ([['h', 'i']] : List (List Char)).getLast? = some ['h', 'i'] :=
  ⟨by decide,
    (last_line_policy ⟨5, [], [], true, false, "left", false, none, []⟩ (fun x => x)
      [] ['h', 'i'] [['h', 'i']] rfl (by decide)).2.1 rfl⟩

/-- Counterexample to claim C4 as stated: with `initial_indent = "# "`,
empty `subsequent_indent` and `justify_indent = false`, the line
`"a b c"` carries no indent prefix at all, yet its first gap is excluded:
the participating count drops from 2 to 1 and the whole deficit goes to
the second gap while the first stays a single space.  The exclusion is
decided by the configuration, not by the line. -/
theorem indent_exclusion_counterexample :
    ((['a', ' ', 'b', ' ', 'c'] : List Char).take 2 ≠
      (⟨7, ['#', ' '], [], true, false, "left", false, none, []⟩ : Config).initial_indent) ∧
    (⟨7, ['#', ' '], [], true, false, "left", false, none, []⟩ : Config).subsequent_indent
      = [] ∧
    List.count [' '] (splitChunks ['a', ' ', 'b', ' ', 'c']) = 2 ∧
    gapCount ⟨7, ['#', ' '], [], true, false, "left", false, none, []⟩
      ['a', ' ', 'b', ' ', 'c'] = 1 ∧
    justifyLine ⟨7, ['#', ' '], [], true, false, "left", false, none, []⟩ (fun x => x)
      ['a', ' ', 'b', ' ', 'c'] = some ['a', ' ', 'b', ' ', ' ', ' ', 'c'] := by decide

/-- Claim C4 amended: with `justify_indent = false`, the first gap of a
line is excluded from justification (count decremented, first single-space
chunk kept as exactly one space) if and only if the configuration carries
a non-empty `initial_indent` or `subsequent_indent` — regardless of
whether the particular line carries that prefix; only when both indent
strings are empty do all gaps of every line participate. -/
theorem indent_exclusion_config_based (cfg : Config) (shuffle : List Int → List Int)
    (hs : IsShuffle shuffle) (hji : cfg.justify_indent = false) :
    (∀ line : List Char, cfg.initial_indent = [] ∧ cfg.subsequent_indent = [] →
      gapCount cfg line = (List.count [' '] (splitChunks line) : Int)) ∧
    (∀ line : List Char, cfg.initial_indent ≠ [] ∨ cfg.subsequent_indent ≠ [] →
      gapCount cfg line = (List.count [' '] (splitChunks line) : Int) - 1) ∧
    (∀ line pre post, cfg.initial_indent ≠ [] ∨ cfg.subsequent_indent ≠ [] →
      splitChunks line = pre ++ [' '] :: post → [' '] ∉ pre →
      gapCount cfg line ≠ 0 →
      ∃ q, justifyLine cfg shuffle line = some (pre.flatten ++ ' ' :: q) ∧
        q.head? ≠ some ' ') := by
  refine ⟨?_, ?_, ?_⟩
  · intro line hemp
    have hia : indentActive cfg = false := by
      rw [← Bool.not_eq_true]
      rw [indentActive_true_iff cfg hji]
      simp [hemp.1, hemp.2]
    rw [gapCount_eq, hia]
    simp
  · intro line hind
    have hia : indentActive cfg = true := (indentActive_true_iff cfg hji).mpr hind
    rw [gapCount_eq, hia]
    simp
  · intro line pre post hind hsplit hpre hg
    have hia : indentActive cfg = true := (indentActive_true_iff cfg hji).mpr hind
    have hcpre : List.count [' '] pre = 0 := List.count_eq_zero.mpr hpre
    have hcount : List.count [' '] (splitChunks line) = 1 + List.count [' '] post := by
      rw [hsplit, List.count_append, List.count_cons]
      simp [hcpre]
      omega
    have hgc := gapCount_eq cfg line
    rw [hia, if_pos rfl, hcount] at hgc
    have hgap : gapCount cfg line = (List.count [' '] post : Int) := by
      rw [hgc]
      push_cast
      ring
    have hgappos : 0 < gapCount cfg line := by
      rw [hgap] at hg ⊢
      omega
    obtain ⟨d, hdist⟩ : ∃ d,
        pyDistribute (cfg.width - (line.length : Int)) (gapCount cfg line) = some d := by
      rw [pyDistribute_pos_eq _ _ hgappos]
      exact ⟨_, rfl⟩
    have hlend : d.length = (gapCount cfg line).toNat :=
      pyDistribute_pos_length _ _ hgappos d hdist
    have hlen1 : (if cfg.random_spacing then shuffle d else d).length =
        (gapCount cfg line).toNat := by
      rw [shuffled_length shuffle hs _ d, hlend]
    have hcpost : List.count [' '] post =
        (if cfg.random_spacing then shuffle d else d).length := by
      rw [hlen1]
      omega
    obtain ⟨r, hr⟩ := widen_some post (if cfg.random_spacing then shuffle d else d)
      (le_of_eq hcpost)
    have hwid : widen (splitChunks line)
        (0 :: (if cfg.random_spacing then shuffle d else d)) =
        some (pre ++ [' '] :: r) := by
      rw [hsplit, widen_decomp pre post _ 0 hpre, hr]
      norm_num
    have hjl := justifyLine_of_widen cfg shuffle line d (pre ++ [' '] :: r)
      (by omega) hdist (by rw [if_pos hia]; exact hwid)
    refine ⟨r.flatten, ?_, ?_⟩
    · rw [hjl]
      simp
    · cases hpost : post with
      | nil =>
        rw [hpost] at hgap
        simp at hgap
        exact absurd hgap hg
      | cons p0 post2 =>
        have halt := splitChunks_alt line
        rw [hsplit, hpost] at halt
        have hchain := (List.chain'_append.mp halt).2.1
        rw [List.chain'_cons] at hchain
        have hRf : chunkWs [' '] ≠ chunkWs p0 := hchain.1
        have hp0ne : p0 ≠ [' '] := by
          intro he
          subst he
          exact hRf rfl
        have hp0mem : p0 ∈ splitChunks line := by
          rw [hsplit, hpost]
          simp
        have hp0nenil : p0 ≠ [] := splitChunks_ne_nil line p0 hp0mem
        have hws : chunkWs p0 = false := by
          have : chunkWs ([' '] : List Char) = true := by decide
          rw [this] at hRf
          simpa using hRf.symm
        rw [hpost, widen_cons, if_neg hp0ne] at hr
        rw [Option.map_eq_some'] at hr
        obtain ⟨r2, hr2, hreq⟩ := hr
        subst hreq
        cases p0 with
        | nil => exact absurd rfl hp0nenil
        | cons a p0t =>
          have haw : a.isWhitespace = false := by
            rw [chunkWs] at hws
            exact hws
          have hane : a ≠ ' ' := by
            intro he
            subst he
            simp at haw
          simp only [List.flatten_cons, List.cons_append, List.head?_cons]
          intro hcon
          exact hane (Option.some.inj hcon)

/-- Witness for the amended C4: config with `initial_indent = "# "`,
line `"x y z"` at width 6: the count drops by one, the emitted line is
`"x y  z"` with the first gap kept at a single space. -/
theorem indent_exclusion_config_based_witness :
    (⟨6, ['#', ' '], [], true, false, "left", false, none, []⟩ : Config).justify_indent
      = false ∧
    gapCount ⟨6, ['#', ' '], [], true, false, "left", false, none, []⟩
      ['x', ' ', 'y', ' ', 'z'] =
      (List.count [' '] (splitChunks ['x', ' ', 'y', ' ', 'z']) : Int) - 1 :=
  ⟨rfl,
    (indent_exclusion_config_based ⟨6, ['#', ' '], [], true, false, "left", false, none, []⟩
      (fun x => x) (fun l => List.Perm.refl l) rfl).2.1 ['x', ' ', 'y', ' ', 'z']
      (by simp)⟩

/-- Claim C6: with `random_spacing = false`, `wrap` and `fill` do not
depend on the shuffling function at all — the output is a deterministic
function of text and configuration. -/
theorem deterministic_mode_reproducible (cfg : Config) (s1 s2 : List Int → List Int)
    (text : List Char) (hr : cfg.random_spacing = false) :
    wrapModel cfg s1 text = wrapModel cfg s2 text ∧
    fillModel cfg s1 text = fillModel cfg s2 text := by
  have hw : wrapModel cfg s1 text = wrapModel cfg s2 text := by
    rw [wrapModel, wrapModel]
    cases hg : greedyWrap cfg (collapseSpaces (pyStrip text)) with
    | none => rfl
    | some lines =>
      simp only [Option.some_bind]
      exact justifyLines_shuffle_congr cfg s1 s2 lines hr
  exact ⟨hw, by rw [fillModel, fillModel, hw]⟩

/-- Witness for C6: identity and reversal shuffles give the same output. -/
theorem deterministic_mode_reproducible_witness :
    (⟨5, [], [], true, false, "left", false, none, []⟩ : Config).random_spacing = false ∧
    (wrapModel ⟨5, [], [], true, false, "left", false, none, []⟩ (fun l => l)
        ['a', ' ', 'b'] =
      wrapModel ⟨5, [], [], true, false, "left", false, none, []⟩ (fun l => l.reverse)
        ['a', ' ', 'b'] ∧
     fillModel ⟨5, [], [], true, false, "left", false, none, []⟩ (fun l => l)
        ['a', ' ', 'b'] =
      fillModel ⟨5, [], [], true, false, "left", false, none, []⟩ (fun l => l.reverse)
        ['a', ' ', 'b']) :=
  ⟨rfl, deterministic_mode_reproducible ⟨5, [], [], true, false, "left", false, none, []⟩
    (fun l => l) (fun l => l.reverse) ['a', ' ', 'b'] rfl⟩



/-- Claim C2: for every deficit `num ≥ 0` and gap count `len > 0`,
`_distribute(num, len)` returns a list of exactly `len` integers summing
to `num`, whose first `num % len` entries are `num // len + 1` and whose
remaining entries are `num // len`; randomized mode only permutes this
list, so every permutation of it still sums to the deficit. -/
theorem distribute_spec (num len : Int) (hn : 0 ≤ num) (hl : 0 < len) :
    ∃ d, pyDistribute num len = some d ∧
      d.length = len.toNat ∧ d.sum = num ∧
      (∀ i : Nat, i < (num.fmod len).toNat → d.getD i 0 = num.fdiv len + 1) ∧
      (∀ i : Nat, (num.fmod len).toNat ≤ i → i < d.length → d.getD i 0 = num.fdiv len) ∧
      (∀ s : List Int, List.Perm s d → s.sum = num) := by
  have hk0 : 0 ≤ num.fmod len := Int.fmod_nonneg' num hl
  have hk1 : num.fmod len < len := Int.fmod_lt_of_pos num hl
  refine ⟨List.replicate (num.fmod len).toNat (num.fdiv len + 1) ++
      List.replicate (len.toNat - (num.fmod len).toNat) (num.fdiv len),
    pyDistribute_pos_eq num len hl, ?_, ?_, ?_, ?_, ?_⟩
  · simp only [List.length_append, List.length_replicate]
    omega
  · exact pyDistribute_pos_sum num len hl _ (pyDistribute_pos_eq num len hl)
  · intro i hi
    rw [List.getD_eq_getElem?_getD, List.getElem?_append_left (by simpa using hi),
      List.getElem?_replicate_of_lt hi]
    rfl
  · intro i h1 h2
    simp only [List.length_append, List.length_replicate] at h2
    rw [List.getD_eq_getElem?_getD, List.getElem?_append_right (by simpa using h1)]
    simp only [List.length_replicate]
    rw [List.getElem?_replicate_of_lt (by omega)]
    rfl
  · intro s hp
    rw [hp.sum_eq]
    exact pyDistribute_pos_sum num len hl _ (pyDistribute_pos_eq num len hl)

/-- Witness for C2 at the docstring example: 113 distributed over 5. -/
theorem distribute_spec_witness :
    (0 : Int) ≤ 113 ∧ (0 : Int) < 5 ∧
    (∃ d, pyDistribute 113 5 = some d ∧
      d.length = (5 : Int).toNat ∧ d.sum = 113 ∧
      (∀ i : Nat, i < ((113 : Int).fmod 5).toNat → d.getD i 0 = (113 : Int).fdiv 5 + 1) ∧
      (∀ i : Nat, ((113 : Int).fmod 5).toNat ≤ i → i < d.length →
        d.getD i 0 = (113 : Int).fdiv 5) ∧
      (∀ s : List Int, List.Perm s d → s.sum = 113)) :=
  ⟨by decide, by decide, distribute_spec 113 5 (by decide) (by decide)⟩

/-- Claim C1: with justify enabled, every output line except the last
whose participating gap count is positive and whose deficit is
non-negative is emitted with length exactly the configured width, in both
deterministic and randomized (permutation) spacing modes. -/
theorem justify_nonlast_exact_width (cfg : Config) (shuffle : List Int → List Int)
    (hs : IsShuffle shuffle) (lines out : List (List Char)) (i : Nat)
    (hj : cfg.justify = true)
    (h : justifyLines cfg shuffle lines = some out)
    (hi : i + 1 < out.length)
    (hg : 0 < gapCount cfg (lines.getD i []))
    (hd : 0 ≤ cfg.width - ((lines.getD i []).length : Int)) :
    ((out.getD i []).length : Int) = cfg.width := by
  have hne : lines ≠ [] := by
    intro he
    subst he
    rw [justifyLines_nil] at h
    cases h
    simp at hi
  obtain ⟨jl, jlast, hmap, hlast, hout⟩ := justifyLines_inv cfg shuffle lines out hj hne h
  have hlenjl : jl.length = lines.length := optionMap_length _ _ _ hmap
  have hjlne : jl ≠ [] := by
    intro he
    subst he
    exact hne (List.eq_nil_of_length_eq_zero (by simpa using hlenjl.symm))
  have houtlen : out.length = jl.length := by
    subst hout
    rw [List.length_append, List.length_dropLast]
    have h0 : jl.length ≠ 0 := fun h0 => hjlne (List.eq_nil_of_length_eq_zero h0)
    simp only [List.length_cons, List.length_nil]
    omega
  have hlt : i < jl.dropLast.length := by
    rw [List.length_dropLast]
    omega
  have h1 : out[i]? = jl.dropLast[i]? := by
    subst hout
    exact List.getElem?_append_left hlt
  have h2 : jl[i]? = jl.dropLast[i]? := by
    conv_lhs => rw [← List.dropLast_concat_getLast hjlne]
    exact List.getElem?_append_left hlt
  have hidx : out.getD i [] = jl.getD i [] := by
    rw [List.getD_eq_getElem?_getD, List.getD_eq_getElem?_getD, h1, h2]
  have hfi := optionMap_getD _ _ _ hmap i (by omega) [] []
  obtain ⟨o2, ho2, holen⟩ := justifyLine_exact cfg shuffle hs (lines.getD i []) hg hd
  rw [ho2] at hfi
  have heq : o2 = jl.getD i [] := Option.some.inj hfi
  rw [hidx, ← heq]
  exact holen

/-- Witness for C1: width 10, lines `"a b"` and `"c"`; the first output
line is stretched to exactly 10 columns. -/
theorem justify_nonlast_exact_width_witness :
    (0 : Int) < gapCount ⟨10, [], [], true, false, "left", false, none, []⟩ ['a', ' ', 'b'] ∧
    ((([['a', ' ', ' ', ' ', ' ', ' ', ' ', ' ', ' ', 'b'], ['c']] :
        List (List Char)).getD 0 []).length : Int) =
      (⟨10, [], [], true, false, "left", false, none, []⟩ : Config).width :=
  ⟨by decide,
    justify_nonlast_exact_width ⟨10, [], [], true, false, "left", false, none, []⟩
      (fun l => l) (fun l => List.Perm.refl l) [['a', ' ', 'b'], ['c']]
      [['a', ' ', ' ', ' ', ' ', ' ', ' ', ' ', ' ', 'b'], ['c']] 0 rfl (by decide)
      (by decide) (by decide) (by decide)⟩

/-- Counterexample to claim C5 as stated: at width 2 the line `"a b"` has
participating gap count 1 and deficit −1 ≤ 0, yet the emitted line is
`"ab"`, not the unchanged input — the single-space gap is removed, because
`_distribute` hands the widening loop a negative count and
`' ' * (count + 1)` is empty. -/
theorem negative_deficit_counterexample :
    gapCount ⟨2, [], [], true, false, "left", false, none, []⟩ ['a', ' ', 'b'] = 1 ∧
    (⟨2, [], [], true, false, "left", false, none, []⟩ : Config).width -
      ((['a', ' ', 'b'] : List Char).length : Int) ≤ 0 ∧
    justifyLine ⟨2, [], [], true, false, "left", false, none, []⟩ (fun l => l)
      ['a', ' ', 'b'] = some ['a', 'b'] ∧
    (['a', 'b'] : List Char) ≠ ['a', ' ', 'b'] := by decide

/-- Claim C5 amended: for a line with positive participating gap count
whose deficit is exactly zero, zero spaces are added and the emitted line
equals the input line (for strictly negative deficit the code can shrink
or remove gaps, as the counterexample shows). -/
theorem zero_deficit_unchanged (cfg : Config) (shuffle : List Int → List Int)
    (hs : IsShuffle shuffle) (line : List Char)
    (hg : 0 < gapCount cfg line)
    (hd : cfg.width - (line.length : Int) = 0) :
    justifyLine cfg shuffle line = some line :=
  justifyLine_deficit_zero cfg shuffle hs line (by omega)

/-- Witness for the amended C5: width 3 and line `"a b"` (deficit 0). -/
theorem zero_deficit_unchanged_witness :
    (0 : Int) < gapCount ⟨3, [], [], true, false, "left", false, none, []⟩ ['a', ' ', 'b'] ∧
    justifyLine ⟨3, [], [], true, false, "left", false, none, []⟩ (fun l => l)
      ['a', ' ', 'b'] = some ['a', ' ', 'b'] :=
  ⟨by decide,
    zero_deficit_unchanged ⟨3, [], [], true, false, "left", false, none, []⟩
      (fun l => l) (fun l => List.Perm.refl l) ['a', ' ', 'b'] (by decide) (by decide)⟩

/-- Counterexample to claim C9 as stated: with an indent configured and a
line containing no single-space chunk, the adjusted gap count is −1, so
`_distribute` is called with a negative (not positive) length; the call
returns the empty list and the line is emitted unchanged. -/
theorem distribute_negative_count_counterexample :
    gapCount ⟨10, ['#'], [], true, false, "left", false, none, []⟩ ['w', 'o', 'r', 'd'] = -1 ∧
    justifyLine ⟨10, ['#'], [], true, false, "left", false, none, []⟩ (fun l => l)
      ['w', 'o', 'r', 'd'] = some ['w', 'o', 'r', 'd'] ∧
    pyDistribute ((10 : Int) - 4) (-1) = some [] := by decide

/-- Claim C9 amended: `_distribute` is never called with gap count zero —
every line whose adjusted gap count is zero is emitted unchanged before
the call — so the `ZeroDivisionError` branch is unreachable; whenever the
call happens its length argument is non-zero (possibly −1) and it returns
a list rather than raising, and the whole per-line pass never raises. -/
theorem distribute_no_zero_division (cfg : Config) (shuffle : List Int → List Int)
    (hs : IsShuffle shuffle) (line : List Char)
    (hg : gapCount cfg line ≠ 0) :
    pyDistribute (cfg.width - (line.length : Int)) (gapCount cfg line) ≠ none ∧
    justifyLine cfg shuffle line ≠ none := by
  constructor
  · rw [pyDistribute, if_neg hg]
    simp
  · obtain ⟨o, ho⟩ := justifyLine_some cfg shuffle hs line
    rw [ho]
    simp

/-- Witness for the amended C9 at a line with adjusted gap count −1. -/
theorem distribute_no_zero_division_witness :
    gapCount ⟨10, ['#'], [], true, false, "left", false, none, []⟩ ['w', 'o'] ≠ 0 ∧
    (pyDistribute ((⟨10, ['#'], [], true, false, "left", false, none, []⟩ : Config).width -
        (((['w', 'o']) : List Char).length : Int))
      (gapCount ⟨10, ['#'], [], true, false, "left", false, none, []⟩ ['w', 'o']) ≠ none ∧
    justifyLine ⟨10, ['#'], [], true, false, "left", false, none, []⟩ (fun l => l)
      ['w', 'o'] ≠ none) :=
  ⟨by decide,
    distribute_no_zero_division ⟨10, ['#'], [], true, false, "left", false, none, []⟩
      (fun l => l) (fun l => List.Perm.refl l) ['w', 'o'] (by decide)⟩

/-- Claim C10: with justify enabled and a non-empty wrapped output, any
`justify_last` other than the four dictionary keys makes `_wrap_chunks`
raise a `KeyError` (modelled as `none`): unknown policies are rejected by
exception, not by falling back to a default. -/
theorem unknown_policy_rejected (cfg : Config) (shuffle : List Int → List Int)
    (lines : List (List Char)) (hj : cfg.justify = true) (hne : lines ≠ [])
    (hpol : cfg.justify_last ∉ ["left", "right", "center", "full"]) :
    justifyLines cfg shuffle lines = none := by
  have hlast : ∀ o j : List Char, lastLine cfg o j = none := by
    intro o j
    have h1 : ¬cfg.justify_last = "left" := fun he => hpol (by simp [he])
    have h2 : ¬cfg.justify_last = "right" := fun he => hpol (by simp [he])
    have h3 : ¬cfg.justify_last = "center" := fun he => hpol (by simp [he])
    have h4 : ¬cfg.justify_last = "full" := fun he => hpol (by simp [he])
    rw [lastLine, if_neg h1, if_neg h2, if_neg h3, if_neg h4]
  cases lines with
  | nil => exact absurd rfl hne
  | cons a as =>
    rw [justifyLines_cons_eq cfg shuffle a as hj]
    cases hm : optionMap (justifyLine cfg shuffle) (a :: as) with
    | none => rfl
    | some jl => simp [hlast]

/-- Witness for C10: the unknown policy string `"middle"` is rejected. -/
theorem unknown_policy_rejected_witness :
    (⟨5, [], [], true, false, "middle", false, none, []⟩ : Config).justify = true ∧
    ("middle" : String) ∉ (["left", "right", "center", "full"] : List String) ∧
    justifyLines ⟨5, [], [], true, false, "middle", false, none, []⟩ (fun l => l)
      [['h', 'i']] = none :=
  ⟨rfl, by decide,
    unknown_policy_rejected ⟨5, [], [], true, false, "middle", false, none, []⟩
      (fun l => l) [['h', 'i']] rfl (by decide) (by decide)⟩


/-! ### Degenerate inputs (claim C7) -/

theorem pyStrip_all_ws (s : List Char) (h : ∀ c ∈ s, c.isWhitespace) :
    pyStrip s = [] := by
  rw [pyStrip]
  have h1 : s.dropWhile Char.isWhitespace = [] :=
    List.dropWhile_eq_nil_iff.mpr (fun x hx => h x hx)
  rw [h1]
  rfl

theorem applyMaxLines_nil (cfg : Config) : applyMaxLines cfg [] = [] := by
  rw [applyMaxLines]
  cases cfg.max_lines with
  | none => rfl
  | some m => simp

theorem greedyWrap_valid_eq (cfg : Config) (text : List Char)
    (hw : 0 < cfg.width)
    (hi1 : (cfg.initial_indent.length : Int) < cfg.width)
    (hi2 : (cfg.subsequent_indent.length : Int) < cfg.width) :
    greedyWrap cfg text = some (applyMaxLines cfg
      (greedyPack cfg.width cfg.subsequent_indent cfg.initial_indent true
        (splitChunks text))) := by
  rw [greedyWrap, if_neg]
  simp only [not_or, not_le]
  exact ⟨hw, hi1, hi2⟩

theorem greedyPack_nil_fresh (width : Int) (subs cur : List Char) :
    greedyPack width subs cur true [] = [] := by
  rw [greedyPack]
  rfl

theorem lastLine_valid (cfg : Config)
    (hpm : cfg.justify_last ∈ ["left", "right", "center", "full"]) (o j : List Char) :
    ∃ v, lastLine cfg o j = some v := by
  have hm : cfg.justify_last = "left" ∨ cfg.justify_last = "right" ∨
      cfg.justify_last = "center" ∨ cfg.justify_last = "full" := by
    simpa using hpm
  rcases hm with h | h | h | h
  · exact ⟨o, by simp [lastLine, h]⟩
  · exact ⟨rjust cfg.width o, by simp [lastLine, h]⟩
  · exact ⟨rstrip (pyCenter cfg.width o), by simp [lastLine, h]⟩
  · exact ⟨j, by simp [lastLine, h]⟩

theorem justifyLines_total (cfg : Config) (shuffle : List Int → List Int)
    (hs : IsShuffle shuffle)
    (hpol : cfg.justify = false ∨ cfg.justify_last ∈ ["left", "right", "center", "full"])
    (lines : List (List Char)) :
    ∃ out, justifyLines cfg shuffle lines = some out := by
  cases hjv : cfg.justify with
  | false => exact ⟨lines, justifyLines_not_justify cfg shuffle lines hjv⟩
  | true =>
    rcases hpol with hpf | hpm
    · rw [hjv] at hpf
      cases hpf
    · cases lines with
      | nil => exact ⟨[], justifyLines_nil cfg shuffle⟩
      | cons a as =>
        obtain ⟨jl, hjl⟩ := optionMap_all_some (justifyLine cfg shuffle) (a :: as)
          (fun x _ => justifyLine_some cfg shuffle hs x)
        obtain ⟨jlast, hlast⟩ := lastLine_valid cfg hpm ((a :: as).getLastD [])
          (jl.getLastD [])
        exact ⟨jl.dropLast ++ [jlast],
          justifyLines_intro cfg shuffle (a :: as) jl jlast hjv (by simp) hjl hlast⟩

/-- Claim C7: an input that is empty or entirely whitespace wraps to the
empty sequence (and fills to the empty string), and no degenerate input
— empty text, a single word, all-whitespace text, or any other text —
makes `wrap` raise: under a valid configuration the model always returns
a value. -/
theorem degenerate_inputs_safe (cfg : Config) (shuffle : List Int → List Int)
    (hs : IsShuffle shuffle)
    (hw : 0 < cfg.width)
    (hi1 : (cfg.initial_indent.length : Int) < cfg.width)
    (hi2 : (cfg.subsequent_indent.length : Int) < cfg.width)
    (hpol : cfg.justify = false ∨ cfg.justify_last ∈ ["left", "right", "center", "full"]) :
    (∀ text : List Char, (∀ c ∈ text, c.isWhitespace) →
      wrapModel cfg shuffle text = some [] ∧ fillModel cfg shuffle text = some []) ∧
    (∀ text : List Char, ∃ out, wrapModel cfg shuffle text = some out) := by
  constructor
  · intro text htext
    have hwm : wrapModel cfg shuffle text = some [] := by
      rw [wrapModel, pyStrip_all_ws text htext]
      have hc : collapseSpaces [] = [] := rfl
      rw [hc, greedyWrap_valid_eq cfg [] hw hi1 hi2]
      have hchunks : splitChunks ([] : List Char) = [] := rfl
      rw [hchunks, greedyPack_nil_fresh, applyMaxLines_nil]
      simp only [Option.some_bind]
      exact justifyLines_nil cfg shuffle
    exact ⟨hwm, by rw [fillModel, hwm]; rfl⟩
  · intro text
    rw [wrapModel, greedyWrap_valid_eq cfg _ hw hi1 hi2]
    simp only [Option.some_bind]
    exact justifyLines_total cfg shuffle hs hpol _

/-- Witness for C7: a one-space text wraps to the empty sequence and a
two-letter word wraps without an error. -/
theorem degenerate_inputs_safe_witness :
    (wrapModel ⟨70, [], [], true, false, "left", false, none, []⟩ (fun l => l) [' '] =
        some [] ∧
      fillModel ⟨70, [], [], true, false, "left", false, none, []⟩ (fun l => l) [' '] =
        some []) ∧
    (∃ out, wrapModel ⟨70, [], [], true, false, "left", false, none, []⟩ (fun l => l)
      ['h', 'i'] = some out) :=
  ⟨(degenerate_inputs_safe ⟨70, [], [], true, false, "left", false, none, []⟩ (fun l => l)
      (fun l => List.Perm.refl l) (by decide) (by decide) (by decide)
      (Or.inr (by decide))).1 [' '] (by decide),
    (degenerate_inputs_safe ⟨70, [], [], true, false, "left", false, none, []⟩ (fun l => l)
      (fun l => List.Perm.refl l) (by decide) (by decide) (by decide)
      (Or.inr (by decide))).2 ['h', 'i']⟩

/-! ### Character provenance and padding lengths (for claim C8) -/

theorem rstrip_length_le (s : List Char) : (rstrip s).length ≤ s.length := by
  rw [rstrip]
  rw [List.length_reverse]
  calc (s.reverse.dropWhile Char.isWhitespace).length ≤ s.reverse.length :=
        (List.dropWhile_sublist Char.isWhitespace).length_le
    _ = s.length := List.length_reverse s

theorem mem_rstrip (s : List Char) (c : Char) (h : c ∈ rstrip s) : c ∈ s := by
  rw [rstrip] at h
  rw [List.mem_reverse] at h
  have := (List.dropWhile_sublist Char.isWhitespace).subset h
  rwa [List.mem_reverse] at this

theorem mem_pyStrip (s : List Char) (c : Char) (h : c ∈ pyStrip s) : c ∈ s := by
  rw [pyStrip] at h
  rw [List.mem_reverse] at h
  have h1 := (List.dropWhile_sublist Char.isWhitespace).subset h
  rw [List.mem_reverse] at h1
  exact (List.dropWhile_sublist Char.isWhitespace).subset h1

theorem mem_collapseSpaces (s : List Char) (c : Char) (h : c ∈ collapseSpaces s) :
    c ∈ s := by
  induction s using collapseSpaces.induct with
  | case1 => simp [collapseSpaces] at h
  | case2 x =>
    simp [collapseSpaces] at h
    simp [h]
  | case3 x d rest hsp ih =>
    rw [collapseSpaces, if_pos hsp] at h
    exact List.mem_cons_of_mem _ (ih h)
  | case4 x d rest hsp ih =>
    rw [collapseSpaces, if_neg hsp] at h
    rcases List.mem_cons.mp h with h1 | h1
    · simp [h1]
    · exact List.mem_cons_of_mem _ (ih h1)

theorem mem_intercalate (sep : List Char) (ls : List (List Char)) (c : Char)
    (h : c ∈ List.intercalate sep ls) : c ∈ sep ∨ ∃ l ∈ ls, c ∈ l := by
  induction ls with
  | nil => simp [List.intercalate] at h
  | cons x xs ih =>
    cases xs with
    | nil =>
      simp [List.intercalate] at h
      exact Or.inr ⟨x, by simp, h⟩
    | cons y ys =>
      rw [List.intercalate, List.intersperse_cons_cons, List.flatten_cons,
        List.flatten_cons] at h
      rcases List.mem_append.mp h with h1 | h1
      · exact Or.inr ⟨x, by simp, h1⟩
      · rcases List.mem_append.mp h1 with h2 | h2
        · exact Or.inl h2
        · rcases ih (by rwa [List.intercalate]) with h3 | ⟨l, hl, hcl⟩
          · exact Or.inl h3
          · exact Or.inr ⟨l, by simp [List.mem_cons.mp hl], hcl⟩

theorem intercalate_single (sep x : List Char) : List.intercalate sep [x] = x := by
  simp [List.intercalate]

theorem widen_chars (chunks : List (List Char)) (q : List Int) (r : List (List Char))
    (h : widen chunks q = some r) :
    ∀ c ∈ r.flatten, c = ' ' ∨ c ∈ chunks.flatten := by
  induction chunks generalizing q r with
  | nil =>
    cases h
    simp
  | cons ch rest ih =>
    rw [widen_cons] at h
    by_cases hc : ch = [' ']
    · rw [if_pos hc] at h
      cases q with
      | nil => simp at h
      | cons a q2 =>
        have h5 : (widen rest q2).map
            (fun r => List.replicate (a + 1).toNat ' ' :: r) = some r := h
        cases hw : widen rest q2 with
        | none => rw [hw] at h5; simp at h5
        | some r2 =>
          rw [hw] at h5
          simp at h5
          subst h5
          intro c hcm
          simp only [List.flatten_cons, List.mem_append] at hcm
          rcases hcm with h1 | h1
          · exact Or.inl (List.eq_of_mem_replicate h1)
          · rcases ih q2 r2 hw c h1 with h2 | h2
            · exact Or.inl h2
            · exact Or.inr (by simp [h2])
    · rw [if_neg hc] at h
      have h5 : (widen rest q).map (fun r => ch :: r) = some r := h
      cases hw : widen rest q with
      | none => rw [hw] at h5; simp at h5
      | some r2 =>
        rw [hw] at h5
        simp at h5
        subst h5
        intro c hcm
        simp only [List.flatten_cons, List.mem_append] at hcm
        rcases hcm with h1 | h1
        · exact Or.inr (by simp [h1])
        · rcases ih q r2 hw c h1 with h2 | h2
          · exact Or.inl h2
          · exact Or.inr (by simp [h2])

theorem justifyLine_chars (cfg : Config) (shuffle : List Int → List Int)
    (line out : List Char) (h : justifyLine cfg shuffle line = some out) :
    ∀ c ∈ out, c = ' ' ∨ c ∈ line := by
  by_cases hg : gapCount cfg line = 0
  · rw [justifyLine_gap_zero cfg shuffle line hg] at h
    cases h
    intro c hc
    exact Or.inr hc
  · cases hd : pyDistribute (cfg.width - (line.length : Int)) (gapCount cfg line) with
    | none =>
      have h2 := (justifyLine_of_gap_ne cfg shuffle line hg).symm.trans h
      rw [hd] at h2
      simp at h2
    | some d =>
      have h3 := (justifyLine_of_dist cfg shuffle line d hg hd).symm.trans h
      cases hw : widen (splitChunks line)
          (if indentActive cfg then 0 :: (if cfg.random_spacing then shuffle d else d)
           else (if cfg.random_spacing then shuffle d else d)) with
      | none => rw [hw] at h3; simp at h3
      | some r =>
        rw [hw] at h3
        simp at h3
        intro c hc
        rw [← h3] at hc
        rcases widen_chars _ _ r hw c hc with h4 | h4
        · exact Or.inl h4
        · rw [splitChunks_flatten] at h4
          exact Or.inr h4

theorem pyCenter_length (w : Int) (s : List Char) (h : (s.length : Int) ≤ w) :
    ((pyCenter w s).length : Int) ≤ w := by
  rw [pyCenter]
  by_cases hc : w ≤ (s.length : Int)
  · rw [if_pos hc]
    exact h
  · rw [if_neg hc]
    simp only [List.length_append, List.length_replicate]
    have hb1 : ((w - (s.length : Int)).toNat &&& w.toNat &&& 1) ≤ 1 := Nat.and_le_right
    have hb2 : (w - (s.length : Int)).toNat / 2 ≤ (w - (s.length : Int)).toNat :=
      Nat.div_le_self _ _
    have hb3 : (w - (s.length : Int)).toNat / 2 + 1 ≤ (w - (s.length : Int)).toNat ∨
        (w - (s.length : Int)).toNat = 1 := by omega
    omega

theorem mem_pyCenter (w : Int) (s : List Char) (c : Char) (h : c ∈ pyCenter w s) :
    c = ' ' ∨ c ∈ s := by
  rw [pyCenter] at h
  by_cases hc : w ≤ (s.length : Int)
  · rw [if_pos hc] at h
    exact Or.inr h
  · rw [if_neg hc] at h
    simp only [List.mem_append] at h
    rcases h with (h1 | h1) | h1
    · exact Or.inl (List.eq_of_mem_replicate h1)
    · exact Or.inr h1
    · exact Or.inl (List.eq_of_mem_replicate h1)

/-! ### Properties of the greedy packer -/

theorem greedyPack_nil_stale (w : Int) (s cur : List Char) :
    greedyPack w s cur false [] = [rstrip cur] := by
  rw [greedyPack]
  rfl

theorem greedyPack_fresh_ws (w : Int) (s cur ch : List Char) (rest : List (List Char))
    (h : chunkWs ch = true) :
    greedyPack w s cur true (ch :: rest) = greedyPack w s cur true rest := by
  rw [greedyPack]
  simp [h]

theorem greedyPack_fresh_fit (w : Int) (s cur ch : List Char) (rest : List (List Char))
    (h : ¬chunkWs ch = true) (h2 : (cur.length : Int) + (ch.length : Int) ≤ w) :
    greedyPack w s cur true (ch :: rest) = greedyPack w s (cur ++ ch) false rest := by
  rw [greedyPack]
  simp [h, h2]

theorem greedyPack_fresh_fallback (w : Int) (s cur ch : List Char)
    (rest : List (List Char)) (h : ¬chunkWs ch = true)
    (h2 : ¬(cur.length : Int) + (ch.length : Int) ≤ w)
    (h3 : w - (cur.length : Int) ≤ 0) :
    greedyPack w s cur true (ch :: rest) = greedyPack w s (cur ++ ch) false rest := by
  rw [greedyPack]
  simp [h, h2, h3]

theorem greedyPack_fresh_break (w : Int) (s cur ch : List Char)
    (rest : List (List Char)) (h : ¬chunkWs ch = true)
    (h2 : ¬(cur.length : Int) + (ch.length : Int) ≤ w)
    (h3 : ¬w - (cur.length : Int) ≤ 0) :
    greedyPack w s cur true (ch :: rest) =
      greedyPack w s (cur ++ ch.take (w - (cur.length : Int)).toNat) false
        (ch.drop (w - (cur.length : Int)).toNat :: rest) := by
  rw [greedyPack]
  simp [h, h2, h3]

theorem greedyPack_stale_fit (w : Int) (s cur ch : List Char) (rest : List (List Char))
    (h2 : (cur.length : Int) + (ch.length : Int) ≤ w) :
    greedyPack w s cur false (ch :: rest) = greedyPack w s (cur ++ ch) false rest := by
  rw [greedyPack]
  simp [h2]

theorem greedyPack_stale_close (w : Int) (s cur ch : List Char) (rest : List (List Char))
    (h2 : ¬(cur.length : Int) + (ch.length : Int) ≤ w) :
    greedyPack w s cur false (ch :: rest) =
      rstrip cur ::
        (if chunkWs ch then greedyPack w s s true rest
         else if (s.length : Int) + (ch.length : Int) ≤ w then
           greedyPack w s (s ++ ch) false rest
         else if w - (s.length : Int) ≤ 0 then
           greedyPack w s (s ++ ch) false rest
         else
           greedyPack w s (s ++ ch.take (w - (s.length : Int)).toNat) false
             (ch.drop (w - (s.length : Int)).toNat :: rest)) := by
  rw [greedyPack]
  simp [h2]

theorem greedyPack_le_width (width : Int) (subs : List Char)
    (hsubs : (subs.length : Int) < width) (cur : List Char) (fresh : Bool)
    (chunks : List (List Char)) :
    (cur.length : Int) ≤ width → (fresh = true → (cur.length : Int) < width) →
    ∀ l ∈ greedyPack width subs cur fresh chunks, (l.length : Int) ≤ width := by
  refine greedyPack.induct width subs
    (fun cur fresh chunks =>
      (cur.length : Int) ≤ width → (fresh = true → (cur.length : Int) < width) →
      ∀ l ∈ greedyPack width subs cur fresh chunks, (l.length : Int) ≤ width)
    ?_ ?_ ?_ ?_ ?_ ?_ ?_ ?_ cur fresh chunks
  · intro cur hcur hfresh l hl
    rw [greedyPack_nil_fresh] at hl
    simp at hl
  · intro cur fresh hf hcur hfresh l hl
    have hfr : fresh = false := by
      cases fresh
      · rfl
      · exact absurd rfl hf
    subst hfr
    rw [greedyPack_nil_stale] at hl
    simp at hl
    subst hl
    have := rstrip_length_le cur
    omega
  · intro cur ch rest hws ih hcur hfresh l hl
    rw [greedyPack_fresh_ws _ _ _ _ _ hws] at hl
    exact ih hcur hfresh l hl
  · intro cur ch rest hws hfit ih hcur hfresh l hl
    rw [greedyPack_fresh_fit _ _ _ _ _ hws hfit] at hl
    refine ih ?_ (by simp) l hl
    simp only [List.length_append]
    omega
  · intro cur ch rest hws hnfit hz ih hcur hfresh l hl
    have := hfresh rfl
    omega
  · intro cur ch rest hws hnfit hnz ih hcur hfresh l hl
    rw [greedyPack_fresh_break _ _ _ _ _ hws hnfit hnz] at hl
    refine ih ?_ (by simp) l hl
    have ht := List.length_take_le (width - (cur.length : Int)).toNat ch
    simp only [List.length_append]
    omega
  · intro cur fresh ch rest hf hfit ih hcur hfresh l hl
    have hfr : fresh = false := by
      cases fresh
      · rfl
      · exact absurd rfl hf
    subst hfr
    rw [greedyPack_stale_fit _ _ _ _ _ hfit] at hl
    refine ih ?_ (by simp) l hl
    simp only [List.length_append]
    omega
  · intro cur fresh ch rest hf hnfit ih1 ih2 ih3 hcur hfresh l hl
    have hfr : fresh = false := by
      cases fresh
      · rfl
      · exact absurd rfl hf
    subst hfr
    rw [greedyPack_stale_close _ _ _ _ _ hnfit] at hl
    rcases List.mem_cons.mp hl with h1 | h1
    · subst h1
      have := rstrip_length_le cur
      omega
    · by_cases hws : chunkWs ch = true
      · rw [if_pos hws] at h1
        exact ih1 (le_of_lt hsubs) (fun _ => hsubs) l h1
      · rw [if_neg hws] at h1
        by_cases hfit2 : (subs.length : Int) + (ch.length : Int) ≤ width
        · rw [if_pos hfit2] at h1
          refine ih2 ?_ (by simp) l h1
          simp only [List.length_append]
          omega
        · rw [if_neg hfit2] at h1
          by_cases hz : width - (subs.length : Int) ≤ 0
          · exact absurd hz (by omega)
          · rw [if_neg hz] at h1
            refine ih3 hfit2 hz ?_ (by simp) l h1
            have ht := List.length_take_le (width - (subs.length : Int)).toNat ch
            simp only [List.length_append]
            omega

theorem greedyPack_chars (width : Int) (subs cur : List Char) (fresh : Bool)
    (chunks : List (List Char)) :
    ∀ l ∈ greedyPack width subs cur fresh chunks, ∀ c ∈ l,
      c ∈ cur ∨ c ∈ subs ∨ ∃ ch ∈ chunks, c ∈ ch := by
  refine greedyPack.induct width subs
    (fun cur fresh chunks =>
      ∀ l ∈ greedyPack width subs cur fresh chunks, ∀ c ∈ l,
        c ∈ cur ∨ c ∈ subs ∨ ∃ ch ∈ chunks, c ∈ ch)
    ?_ ?_ ?_ ?_ ?_ ?_ ?_ ?_ cur fresh chunks
  · intro cur l hl
    rw [greedyPack_nil_fresh] at hl
    simp at hl
  · intro cur fresh hf l hl
    have hfr : fresh = false := by
      cases fresh
      · rfl
      · exact absurd rfl hf
    subst hfr
    rw [greedyPack_nil_stale] at hl
    simp at hl
    subst hl
    intro c hc
    exact Or.inl (mem_rstrip cur c hc)
  · intro cur ch rest hws ih l hl
    rw [greedyPack_fresh_ws _ _ _ _ _ hws] at hl
    intro c hc
    rcases ih l hl c hc with h1 | h1 | ⟨ch2, hch2, hc2⟩
    · exact Or.inl h1
    · exact Or.inr (Or.inl h1)
    · exact Or.inr (Or.inr ⟨ch2, List.mem_cons_of_mem _ hch2, hc2⟩)
  · intro cur ch rest hws hfit ih l hl
    rw [greedyPack_fresh_fit _ _ _ _ _ hws hfit] at hl
    intro c hc
    rcases ih l hl c hc with h1 | h1 | ⟨ch2, hch2, hc2⟩
    · rcases List.mem_append.mp h1 with h2 | h2
      · exact Or.inl h2
      · exact Or.inr (Or.inr ⟨ch, by simp, h2⟩)
    · exact Or.inr (Or.inl h1)
    · exact Or.inr (Or.inr ⟨ch2, List.mem_cons_of_mem _ hch2, hc2⟩)
  · intro cur ch rest hws hnfit hz ih l hl
    rw [greedyPack_fresh_fallback _ _ _ _ _ hws hnfit hz] at hl
    intro c hc
    rcases ih l hl c hc with h1 | h1 | ⟨ch2, hch2, hc2⟩
    · rcases List.mem_append.mp h1 with h2 | h2
      · exact Or.inl h2
      · exact Or.inr (Or.inr ⟨ch, by simp, h2⟩)
    · exact Or.inr (Or.inl h1)
    · exact Or.inr (Or.inr ⟨ch2, List.mem_cons_of_mem _ hch2, hc2⟩)
  · intro cur ch rest hws hnfit hnz ih l hl
    rw [greedyPack_fresh_break _ _ _ _ _ hws hnfit hnz] at hl
    intro c hc
    rcases ih l hl c hc with h1 | h1 | ⟨ch2, hch2, hc2⟩
    · rcases List.mem_append.mp h1 with h2 | h2
      · exact Or.inl h2
      · exact Or.inr (Or.inr ⟨ch, by simp, List.take_subset _ _ h2⟩)
    · exact Or.inr (Or.inl h1)
    · rcases List.mem_cons.mp hch2 with h3 | h3
      · subst h3
        exact Or.inr (Or.inr ⟨ch, by simp, List.drop_subset _ _ hc2⟩)
      · exact Or.inr (Or.inr ⟨ch2, List.mem_cons_of_mem _ h3, hc2⟩)
  · intro cur fresh ch rest hf hfit ih l hl
    have hfr : fresh = false := by
      cases fresh
      · rfl
      · exact absurd rfl hf
    subst hfr
    rw [greedyPack_stale_fit _ _ _ _ _ hfit] at hl
    intro c hc
    rcases ih l hl c hc with h1 | h1 | ⟨ch2, hch2, hc2⟩
    · rcases List.mem_append.mp h1 with h2 | h2
      · exact Or.inl h2
      · exact Or.inr (Or.inr ⟨ch, by simp, h2⟩)
    · exact Or.inr (Or.inl h1)
    · exact Or.inr (Or.inr ⟨ch2, List.mem_cons_of_mem _ hch2, hc2⟩)
  · intro cur fresh ch rest hf hnfit ih1 ih2 ih3 l hl
    have hfr : fresh = false := by
      cases fresh
      · rfl
      · exact absurd rfl hf
    subst hfr
    rw [greedyPack_stale_close _ _ _ _ _ hnfit] at hl
    intro c hc
    rcases List.mem_cons.mp hl with h1 | h1
    · subst h1
      exact Or.inl (mem_rstrip cur c hc)
    · by_cases hws : chunkWs ch = true
      · rw [if_pos hws] at h1
        rcases ih1 l h1 c hc with h2 | h2 | ⟨ch2, hch2, hc2⟩
        · exact Or.inr (Or.inl h2)
        · exact Or.inr (Or.inl h2)
        · exact Or.inr (Or.inr ⟨ch2, List.mem_cons_of_mem _ hch2, hc2⟩)
      · rw [if_neg hws] at h1
        by_cases hfit2 : (subs.length : Int) + (ch.length : Int) ≤ width
        · rw [if_pos hfit2] at h1
          rcases ih2 l h1 c hc with h2 | h2 | ⟨ch2, hch2, hc2⟩
          · rcases List.mem_append.mp h2 with h3 | h3
            · exact Or.inr (Or.inl h3)
            · exact Or.inr (Or.inr ⟨ch, by simp, h3⟩)
          · exact Or.inr (Or.inl h2)
          · exact Or.inr (Or.inr ⟨ch2, List.mem_cons_of_mem _ hch2, hc2⟩)
        · rw [if_neg hfit2] at h1
          by_cases hz : width - (subs.length : Int) ≤ 0
          · rw [if_pos hz] at h1
            rcases ih2 l h1 c hc with h2 | h2 | ⟨ch2, hch2, hc2⟩
            · rcases List.mem_append.mp h2 with h3 | h3
              · exact Or.inr (Or.inl h3)
              · exact Or.inr (Or.inr ⟨ch, by simp, h3⟩)
            · exact Or.inr (Or.inl h2)
            · exact Or.inr (Or.inr ⟨ch2, List.mem_cons_of_mem _ hch2, hc2⟩)
          · rw [if_neg hz] at h1
            rcases (ih3 hfit2 hz) l h1 c hc with h2 | h2 | ⟨ch2, hch2, hc2⟩
            · rcases List.mem_append.mp h2 with h3 | h3
              · exact Or.inr (Or.inl h3)
              · exact Or.inr (Or.inr ⟨ch, by simp, List.take_subset _ _ h3⟩)
            · exact Or.inr (Or.inl h2)
            · rcases List.mem_cons.mp hch2 with h3 | h3
              · subst h3
                exact Or.inr (Or.inr ⟨ch, by simp, List.drop_subset _ _ hc2⟩)
              · exact Or.inr (Or.inr ⟨ch2, List.mem_cons_of_mem _ h3, hc2⟩)

/-! ### Properties of max-lines truncation and the last-line policies -/

theorem applyMaxLines_none (cfg : Config) (raw : List (List Char))
    (h : cfg.max_lines = none) : applyMaxLines cfg raw = raw := by
  rw [applyMaxLines, h]

theorem applyMaxLines_keep (cfg : Config) (raw : List (List Char)) (m : Nat)
    (h : cfg.max_lines = some m) (h2 : raw.length ≤ m) :
    applyMaxLines cfg raw = raw := by
  rw [applyMaxLines, h]
  simp [h2]

theorem applyMaxLines_trunc (cfg : Config) (raw : List (List Char)) (m : Nat)
    (h : cfg.max_lines = some m) (h2 : ¬raw.length ≤ m) :
    applyMaxLines cfg raw = (raw.take m).dropLast ++
      [((raw.take m).getLastD []).take (cfg.width - (cfg.placeholder.length : Int)).toNat ++
        cfg.placeholder] := by
  rw [applyMaxLines, h]
  simp [h2]

theorem getLastD_mem (l : List (List Char)) (h : l ≠ []) : l.getLastD [] ∈ l := by
  rw [List.getLastD_eq_getLast?, List.getLast?_eq_getLast l h]
  simp

theorem applyMaxLines_le_width (cfg : Config) (raw : List (List Char))
    (hraw : ∀ l ∈ raw, (l.length : Int) ≤ cfg.width)
    (hph : (cfg.placeholder.length : Int) ≤ cfg.width) :
    ∀ l ∈ applyMaxLines cfg raw, (l.length : Int) ≤ cfg.width := by
  cases hm : cfg.max_lines with
  | none =>
    rw [applyMaxLines_none cfg raw hm]
    exact hraw
  | some m =>
    by_cases h2 : raw.length ≤ m
    · rw [applyMaxLines_keep cfg raw m hm h2]
      exact hraw
    · rw [applyMaxLines_trunc cfg raw m hm h2]
      intro l hl
      rcases List.mem_append.mp hl with h1 | h1
      · exact hraw l ((List.take_sublist m raw).subset ((List.dropLast_sublist _).subset h1))
      · simp only [List.mem_cons, List.not_mem_nil, or_false] at h1
        subst h1
        simp only [List.length_append]
        have ht := List.length_take_le
          (cfg.width - (cfg.placeholder.length : Int)).toNat ((raw.take m).getLastD [])
        omega

theorem applyMaxLines_chars (cfg : Config) (raw : List (List Char)) :
    ∀ l ∈ applyMaxLines cfg raw, ∀ c ∈ l,
      (∃ l2 ∈ raw, c ∈ l2) ∨ c ∈ cfg.placeholder := by
  cases hm : cfg.max_lines with
  | none =>
    rw [applyMaxLines_none cfg raw hm]
    intro l hl c hc
    exact Or.inl ⟨l, hl, hc⟩
  | some m =>
    by_cases h2 : raw.length ≤ m
    · rw [applyMaxLines_keep cfg raw m hm h2]
      intro l hl c hc
      exact Or.inl ⟨l, hl, hc⟩
    · rw [applyMaxLines_trunc cfg raw m hm h2]
      intro l hl c hc
      rcases List.mem_append.mp hl with h1 | h1
      · exact Or.inl ⟨l,
          (List.take_sublist m raw).subset ((List.dropLast_sublist _).subset h1), hc⟩
      · simp only [List.mem_cons, List.not_mem_nil, or_false] at h1
        subst h1
        rcases List.mem_append.mp hc with h3 | h3
        · cases htk : raw.take m with
          | nil =>
            rw [htk] at h3
            simp at h3
          | cons x xs =>
            have h4 : c ∈ (raw.take m).getLastD [] := List.take_subset _ _ h3
            have h5 : raw.take m ≠ [] := by
              rw [htk]
              simp
            exact Or.inl ⟨(raw.take m).getLastD [],
              (List.take_sublist m raw).subset (getLastD_mem _ h5), h4⟩
        · exact Or.inr h3
    
theorem applyMaxLines_len_le_one (cfg : Config) (raw : List (List Char))
    (h : cfg.max_lines = some 1) : (applyMaxLines cfg raw).length ≤ 1 := by
  by_cases h2 : raw.length ≤ 1
  · rw [applyMaxLines_keep cfg raw 1 h h2]
    exact h2
  · rw [applyMaxLines_trunc cfg raw 1 h h2]
    simp only [List.length_append, List.length_dropLast, List.length_take,
      List.length_cons, List.length_nil]
    omega

theorem lastLine_le_width (cfg : Config) (o j : List Char)
    (ho : (o.length : Int) ≤ cfg.width) (hj : (j.length : Int) ≤ cfg.width)
    (v : List Char) (hv : lastLine cfg o j = some v) :
    (v.length : Int) ≤ cfg.width ∧ (∀ c ∈ v, c = ' ' ∨ c ∈ o ∨ c ∈ j) := by
  rw [lastLine] at hv
  by_cases h1 : cfg.justify_last = "left"
  · rw [if_pos h1] at hv
    cases hv
    exact ⟨ho, fun c hc => Or.inr (Or.inl hc)⟩
  · rw [if_neg h1] at hv
    by_cases h2 : cfg.justify_last = "right"
    · rw [if_pos h2] at hv
      cases hv
      constructor
      · rw [rjust_length cfg.width o ho]
      · intro c hc
        rcases List.mem_append.mp hc with hm | hm
        · exact Or.inl (List.eq_of_mem_replicate hm)
        · exact Or.inr (Or.inl hm)
    · rw [if_neg h2] at hv
      by_cases h3 : cfg.justify_last = "center"
      · rw [if_pos h3] at hv
        cases hv
        constructor
        · calc ((rstrip (pyCenter cfg.width o)).length : Int)
              ≤ ((pyCenter cfg.width o).length : Int) := by
                have := rstrip_length_le (pyCenter cfg.width o)
                omega
            _ ≤ cfg.width := pyCenter_length cfg.width o ho
        · intro c hc
          rcases mem_pyCenter cfg.width o c (mem_rstrip _ c hc) with hm | hm
          · exact Or.inl hm
          · exact Or.inr (Or.inl hm)
      · rw [if_neg h3] at hv
        by_cases h4 : cfg.justify_last = "full"
        · rw [if_pos h4] at hv
          cases hv
          exact ⟨hj, fun c hc => Or.inr (Or.inr hc)⟩
        · rw [if_neg h4] at hv
          cases hv

theorem justifyLine_le_width (cfg : Config) (shuffle : List Int → List Int)
    (hs : IsShuffle shuffle) (line : List Char)
    (hind : indentActive cfg = false)
    (hlen : (line.length : Int) ≤ cfg.width) :
    ∃ out, justifyLine cfg shuffle line = some out ∧ (out.length : Int) ≤ cfg.width ∧
      (∀ c ∈ out, c = ' ' ∨ c ∈ line) := by
  by_cases hg : gapCount cfg line = 0
  · refine ⟨line, justifyLine_gap_zero cfg shuffle line hg, hlen, ?_⟩
    intro c hc
    exact Or.inr hc
  · have hgpos : 0 < gapCount cfg line := by
      have := gapCount_eq cfg line
      rw [hind] at this
      simp at this
      omega
    obtain ⟨out, ho, holen⟩ := justifyLine_exact cfg shuffle hs line hgpos (by omega)
    exact ⟨out, ho, by omega, justifyLine_chars cfg shuffle line out ho⟩

theorem justifyLines_single (cfg : Config) (shuffle : List Int → List Int)
    (hs : IsShuffle shuffle) (l : List Char)
    (hind : indentActive cfg = false)
    (hlen : (l.length : Int) ≤ cfg.width)
    (hpol : cfg.justify = false ∨ cfg.justify_last ∈ ["left", "right", "center", "full"]) :
    ∃ v, justifyLines cfg shuffle [l] = some [v] ∧ (v.length : Int) ≤ cfg.width ∧
      (∀ c ∈ v, c = ' ' ∨ c ∈ l) := by
  cases hjv : cfg.justify with
  | false =>
    exact ⟨l, justifyLines_not_justify cfg shuffle [l] hjv, hlen, fun c hc => Or.inr hc⟩
  | true =>
    rcases hpol with hpf | hpm
    · rw [hjv] at hpf
      cases hpf
    · obtain ⟨j, hj, hjlen, hjchars⟩ := justifyLine_le_width cfg shuffle hs l hind hlen
      have hmap : optionMap (justifyLine cfg shuffle) [l] = some [j] :=
        optionMap_cons_some _ l [] j [] hj (optionMap_nil _)
      obtain ⟨v, hv⟩ := lastLine_valid cfg hpm l j
      have hv2 : lastLine cfg ([l].getLastD []) ([j].getLastD []) = some v := hv
      have hout := justifyLines_intro cfg shuffle [l] [j] v hjv (by simp) hmap hv2
      have ⟨hvlen, hvchars⟩ := lastLine_le_width cfg l j hlen hjlen v hv
      refine ⟨v, by simpa using hout, hvlen, ?_⟩
      intro c hc
      rcases hvchars c hc with h1 | h1 | h1
      · exact Or.inl h1
      · exact Or.inr h1
      · rcases hjchars c h1 with h2 | h2
        · exact Or.inl h2
        · exact Or.inr h2

theorem fill_single_bound (cfg1 : Config) (shuffle : List Int → List Int)
    (hs : IsShuffle shuffle) (t0 : List Char)
    (hml : cfg1.max_lines = some 1)
    (hw : 0 < cfg1.width)
    (hii : cfg1.initial_indent = []) (hsi : cfg1.subsequent_indent = [])
    (hph : (cfg1.placeholder.length : Int) ≤ cfg1.width)
    (hphnl : ('\n' : Char) ∉ cfg1.placeholder)
    (hpol : cfg1.justify = false ∨ cfg1.justify_last ∈ ["left", "right", "center", "full"])
    (ht0 : ∀ c ∈ t0, c = ' ' ∨ c.isWhitespace = false) :
    ∃ out, fillModel cfg1 shuffle t0 = some out ∧
      (out.length : Int) ≤ cfg1.width ∧ ('\n' : Char) ∉ out := by
  have ht1chars : ∀ c ∈ collapseSpaces (pyStrip t0), c = ' ' ∨ c.isWhitespace = false :=
    fun c hc => ht0 c (mem_pyStrip t0 c (mem_collapseSpaces _ c hc))
  have hrawwidth : ∀ l ∈ greedyPack cfg1.width cfg1.subsequent_indent cfg1.initial_indent
      true (splitChunks (collapseSpaces (pyStrip t0))), (l.length : Int) ≤ cfg1.width := by
    refine greedyPack_le_width cfg1.width cfg1.subsequent_indent ?_ _ _ _ ?_ ?_
    · rw [hsi]
      simpa using hw
    · rw [hii]
      simp
      omega
    · intro _
      rw [hii]
      simpa using hw
  have hrawchars : ∀ l ∈ greedyPack cfg1.width cfg1.subsequent_indent cfg1.initial_indent
      true (splitChunks (collapseSpaces (pyStrip t0))), ∀ c ∈ l,
      c = ' ' ∨ c.isWhitespace = false := by
    intro l hl c hc
    rcases greedyPack_chars cfg1.width cfg1.subsequent_indent cfg1.initial_indent true
        (splitChunks (collapseSpaces (pyStrip t0))) l hl c hc with h1 | h1 | ⟨ch, hch, hc2⟩
    · rw [hii] at h1
      simp at h1
    · rw [hsi] at h1
      simp at h1
    · have hmem : c ∈ collapseSpaces (pyStrip t0) := by
        rw [← splitChunks_flatten (collapseSpaces (pyStrip t0))]
        exact List.mem_flatten.mpr ⟨ch, hch, hc2⟩
      exact ht1chars c hmem
  have hgw : greedyWrap cfg1 (collapseSpaces (pyStrip t0)) =
      some (applyMaxLines cfg1 (greedyPack cfg1.width cfg1.subsequent_indent
        cfg1.initial_indent true (splitChunks (collapseSpaces (pyStrip t0))))) := by
    refine greedyWrap_valid_eq cfg1 _ hw ?_ ?_
    · rw [hii]
      simpa using hw
    · rw [hsi]
      simpa using hw
  have hraw2len := applyMaxLines_len_le_one cfg1
    (greedyPack cfg1.width cfg1.subsequent_indent cfg1.initial_indent true
      (splitChunks (collapseSpaces (pyStrip t0)))) hml
  have hraw2width := applyMaxLines_le_width cfg1
    (greedyPack cfg1.width cfg1.subsequent_indent cfg1.initial_indent true
      (splitChunks (collapseSpaces (pyStrip t0)))) hrawwidth hph
  have hraw2chars : ∀ l ∈ applyMaxLines cfg1
      (greedyPack cfg1.width cfg1.subsequent_indent cfg1.initial_indent true
        (splitChunks (collapseSpaces (pyStrip t0)))), ∀ c ∈ l,
      c = ' ' ∨ c.isWhitespace = false ∨ c ∈ cfg1.placeholder := by
    intro l hl c hc
    rcases applyMaxLines_chars cfg1 _ l hl c hc with ⟨l2, hl2, hc2⟩ | h1
    · rcases hrawchars l2 hl2 c hc2 with h2 | h2
      · exact Or.inl h2
      · exact Or.inr (Or.inl h2)
    · exact Or.inr (Or.inr h1)
  rw [fillModel, wrapModel, hgw]
  simp only [Option.some_bind]
  cases hr2 : applyMaxLines cfg1
      (greedyPack cfg1.width cfg1.subsequent_indent cfg1.initial_indent true
        (splitChunks (collapseSpaces (pyStrip t0)))) with
  | nil =>
    rw [justifyLines_nil]
    refine ⟨[], rfl, by simpa using le_of_lt hw, by simp⟩
  | cons l rest =>
    cases rest with
    | cons l2 rest2 =>
      rw [hr2] at hraw2len
      simp at hraw2len
    | nil =>
      have hind : indentActive cfg1 = false := by
        rw [indentActive, hii, hsi]
        simp
      have hlw : (l.length : Int) ≤ cfg1.width := by
        refine hraw2width l ?_
        rw [hr2]
        simp
      obtain ⟨v, hjv, hvlen, hvchars⟩ :=
        justifyLines_single cfg1 shuffle hs l hind hlw hpol
      rw [hjv]
      refine ⟨v, by rw [Option.map_some', intercalate_single], hvlen, ?_⟩
      intro hnl
      rcases hvchars '\n' hnl with h1 | h1
      · cases h1
      · have hlmem : l ∈ applyMaxLines cfg1
            (greedyPack cfg1.width cfg1.subsequent_indent cfg1.initial_indent true
              (splitChunks (collapseSpaces (pyStrip t0)))) := by
          rw [hr2]
          simp
        rcases hraw2chars l hlmem '\n' h1 with h2 | h2 | h2
        · cases h2
        · simp at h2
        · exact hphnl h2

/-- Claim C8: `shorten(text, width)` returns a single-line string (no
newline characters) whose length is at most the width, for every text and
every width accepted by a valid configuration (positive width that
accommodates the placeholder, default empty indents, a recognized
last-line policy). -/
theorem shorten_width_bound (cfg : Config) (shuffle : List Int → List Int)
    (hs : IsShuffle shuffle) (text : List Char)
    (hw : 0 < cfg.width)
    (hii : cfg.initial_indent = []) (hsi : cfg.subsequent_indent = [])
    (hph : (cfg.placeholder.length : Int) ≤ cfg.width)
    (hphnl : ('\n' : Char) ∉ cfg.placeholder)
    (hpol : cfg.justify = false ∨ cfg.justify_last ∈ ["left", "right", "center", "full"]) :
    ∃ out, shortenModel cfg shuffle text = some out ∧
      (out.length : Int) ≤ cfg.width ∧ ('\n' : Char) ∉ out := by
  have htext : ∀ c ∈ List.intercalate [' ']
      ((splitChunks text).filter fun c => !chunkWs c), c = ' ' ∨ c.isWhitespace = false := by
    intro c hc
    rcases mem_intercalate [' '] _ c hc with h1 | ⟨l, hl, hcl⟩
    · simp at h1
      exact Or.inl h1
    · rw [List.mem_filter] at hl
      obtain ⟨hmem, hnws⟩ := hl
      right
      rw [splitChunks_uniform text l hmem c hcl]
      simpa using hnws
  obtain ⟨out, hout, hlen, hnl⟩ := fill_single_bound { cfg with max_lines := some 1 }
    shuffle hs (List.intercalate [' '] ((splitChunks text).filter fun c => !chunkWs c))
    rfl hw hii hsi hph hphnl hpol htext
  exact ⟨out, hout, hlen, hnl⟩

/-- Witness for C8 at width 10 with the standard placeholder. -/
theorem shorten_width_bound_witness :
    (0 : Int) < (10 : Int) ∧
    (∃ out, shortenModel
        ⟨10, [], [], true, false, "left", false, none, [' ', '[', '.', '.', '.', ']']⟩
        (fun l => l) ['o', 'n', 'e', ' ', 't', 'w', 'o', ' ', 't', 'h', 'r', 'e', 'e'] =
        some out ∧
      (out.length : Int) ≤
        (⟨10, [], [], true, false, "left", false, none,
          [' ', '[', '.', '.', '.', ']']⟩ : Config).width ∧
      ('\n' : Char) ∉ out) :=
  ⟨by decide,
    shorten_width_bound
      ⟨10, [], [], true, false, "left", false, none, [' ', '[', '.', '.', '.', ']']⟩
      (fun l => l) (fun l => List.Perm.refl l)
      ['o', 'n', 'e', ' ', 't', 'w', 'o', ' ', 't', 'h', 'r', 'e', 'e']
      (by decide) rfl rfl (by decide) (by decide) (Or.inr (by decide))⟩
